import Mathlib

/-!
A shallow embedding of the buddy page allocator implemented in
`src/buddy.cpp`, together with proofs of the specification claims.

Modelling conventions:
* A page descriptor is identified with its page frame number (a `Nat`);
  the source assumes a total order-preserving bijection between page
  descriptors and frame numbers, and pointer comparisons on descriptors
  coincide with frame-number comparisons.
* The free-area table `_free_areas[MAX_ORDER+1]` is a list of 19 sorted
  lists of block-start frame numbers (`St`); `NULL` is the empty list tail.
* Fallible code runs in `Except Err`: an `assert` failure (kernel panic)
  is `Err.assertFail`; executions that reach undefined behaviour in the
  source (out-of-bounds array access after unsigned-counter wraparound,
  or a `NULL` dereference) are `Err.ub`.
* Loop constructs are modelled by structural recursion on an explicit
  bound that is provably at least the number of iterations the source
  loop performs, so every definition is executable.
-/

namespace Buddy

/-- `#define MAX_ORDER 18` from the source. -/
def MAX_ORDER : Nat := 18

/-- `pages_per_block(order)` is `1 << order`, i.e. `2 ^ order`. -/
def pages_per_block (order : Nat) : Nat := 2 ^ order

/-- `is_correct_alignment_for_order`: the frame number of the page divides
evenly into the number of pages per block of the given order. -/
def is_correct_alignment_for_order (pfn order : Nat) : Bool :=
  pfn % pages_per_block order == 0

/-- `buddy_of`: returns `none` exactly when the source returns `NULL`
(order out of range, or misaligned page); otherwise the buddy is the next
block up if the page is aligned to the next order, and the previous block
down otherwise. -/
def buddy_of (pfn order : Nat) : Option Nat :=
  if MAX_ORDER ≤ order then none
  else if ¬ is_correct_alignment_for_order pfn order then none
  else if is_correct_alignment_for_order pfn (order + 1) then
    some (pfn + pages_per_block order)
  else
    some (pfn - pages_per_block order)

/-- The free-area table: one sorted list of block-start frame numbers per
order, orders `0 .. MAX_ORDER` (19 slots). -/
abbrev St := List (List Nat)

/-- Read `_free_areas[order]` as a list of block starts. -/
def getArea (st : St) (order : Nat) : List Nat := st.getD order []

/-- Write `_free_areas[order]`. -/
def setArea (st : St) (order : Nat) (l : List Nat) : St := st.set order l

/-- Failure modes: a failed `assert` (kernel panic), or reaching undefined
behaviour (out-of-bounds `_free_areas` access / `NULL` dereference). -/
inductive Err where
  | assertFail
  | ub
deriving DecidableEq

/-- Computations over the allocator state that may panic or hit UB. -/
abbrev M (α : Type) := Except Err α

/-- The list walk of `insert_block`: advance while the slot is non-`NULL`
and the new descriptor is greater than the slot's descriptor, then splice
the new descriptor in. -/
def insert_block_list (pfn : Nat) : List Nat → List Nat
  | [] => [pfn]
  | x :: xs => if x < pfn then x :: insert_block_list pfn xs else pfn :: x :: xs

/-- `insert_block(pgd, order)` acting on the free-area table. -/
def insert_block (st : St) (pfn order : Nat) : St :=
  setArea st order (insert_block_list pfn (getArea st order))

/-- The list walk of `remove_block`: find the exact descriptor and unlink
it; `none` when the walk reaches `NULL`, in which case the source's
`assert(*slot == pgd)` fails. -/
def remove_block_list (pfn : Nat) : List Nat → Option (List Nat)
  | [] => none
  | x :: xs =>
    if x = pfn then some xs
    else
      match remove_block_list pfn xs with
      | some l => some (x :: l)
      | none => none

/-- `remove_block(pgd, order)`: panics if the block is not in the list. -/
def remove_block (st : St) (pfn order : Nat) : M St :=
  match remove_block_list pfn (getArea st order) with
  | some l => .ok (setArea st order l)
  | none => .error .assertFail

/-- `split_block(block_pointer, source_order)`: `assert` alignment, no-op
at order 0, otherwise remove the block from `source_order` and insert the
two halves one order down; returns the unchanged left-hand block. -/
def split_block (st : St) (block source_order : Nat) : M (St × Nat) :=
  if ¬ is_correct_alignment_for_order block source_order then .error .assertFail
  else if source_order = 0 then .ok (st, block)
  else do
    let st ← remove_block st block source_order
    let st := insert_block st block (source_order - 1)
    let st := insert_block st (block + pages_per_block (source_order - 1)) (source_order - 1)
    .ok (st, block)

/-- `merge_block(block_pointer, source_order)`: `assert` alignment, remove
the block and its buddy from `source_order`, insert the lower of the two
(the one aligned to `source_order + 1`) one order up; returns the merged
block (the source returns the slot pointing at it).  A `NULL` buddy would
make the second `remove_block` walk to the list end and then dereference
`NULL`, which is UB. -/
def merge_block (st : St) (block source_order : Nat) : M (St × Nat) :=
  if ¬ is_correct_alignment_for_order block source_order then .error .assertFail
  else
    match buddy_of block source_order with
    | none => .error .ub
    | some right => do
      let st ← remove_block st block source_order
      let st ← remove_block st right source_order
      if is_correct_alignment_for_order block (source_order + 1) then
        .ok (insert_block st block (source_order + 1), block)
      else
        .ok (insert_block st right (source_order + 1), right)

/-- The loop of `repeated_merge`: while `curr_order < MAX_ORDER` and the
scan cursor is non-`NULL`, walk the current order's list looking for the
buddy of the tracked block; on finding it, merge and continue one order
higher with the merged block.  The scan through the list is captured by a
membership test: the cursor reaches the buddy pointer iff the buddy's
frame number is a member of the list.  `fuel` bounds the number of merges;
`repeated_merge` supplies `MAX_ORDER - order`, which is exact because each
merge increments `curr_order` and the loop guard stops at `MAX_ORDER`. -/
def repeated_merge_go : Nat → St → Nat → Nat → M St
  | 0, st, _, _ => .ok st
  | fuel + 1, st, block, curr_order =>
    if curr_order < MAX_ORDER then
      match buddy_of block curr_order with
      | none => .ok st
      | some buddy =>
        if buddy ∈ getArea st curr_order then do
          let r ← merge_block st block curr_order
          repeated_merge_go fuel r.1 r.2 (curr_order + 1)
        else .ok st
    else .ok st

/-- `repeated_merge(block_pointer, order)`. -/
def repeated_merge (st : St) (block order : Nat) : M St :=
  repeated_merge_go (MAX_ORDER - order) st block order

/-- `free_pages(pgd, order)`: `assert` alignment, insert the block, then
repeatedly merge. -/
def free_pages (st : St) (pgd order : Nat) : M St :=
  if ¬ is_correct_alignment_for_order pgd order then .error .assertFail
  else repeated_merge (insert_block st pgd order) pgd order

/-- The upward scan of `allocate_pages`: the first order in
`[order, MAX_ORDER]` whose free list is non-empty, `none` if all are
empty.  `fuel` is `MAX_ORDER + 1 - order`, the exact iteration count. -/
def find_first_free : Nat → St → Nat → Option Nat
  | 0, _, _ => none
  | fuel + 1, st, order =>
    if getArea st order ≠ [] then some order
    else if order = MAX_ORDER then none
    else find_first_free fuel st (order + 1)

/-- The downward split loop of `allocate_pages`:
`for (int i = free; i > order; i--) block = split_block(&block, i)`. -/
def split_loop : St → Nat → Nat → Nat → M (St × Nat)
  | st, block, 0, _ => .ok (st, block)
  | st, block, i + 1, order =>
    if order < i + 1 then do
      let r ← split_block st block (i + 1)
      split_loop r.1 r.2 i order
    else .ok (st, block)

/-- `allocate_pages(order)`: scan upward for the first non-empty order
(`NULL`, modelled as `(st, none)`, if every list up to `MAX_ORDER` is
empty), take its head block, split it down to `order`, remove it from
`order`'s list and return it.  A request above `MAX_ORDER` makes the
source read `_free_areas[order]` out of bounds. -/
def allocate_pages (st : St) (order : Nat) : M (St × Option Nat) :=
  if MAX_ORDER < order then .error .ub
  else
    match find_first_free (MAX_ORDER + 1 - order) st order with
    | none => .ok (st, none)
    | some free =>
      match getArea st free with
      | [] => .error .ub
      | block :: _ => do
        let r ← split_loop st block free order
        let st' ← remove_block r.1 r.2 order
        .ok (st', some r.2)

/-- The inner scan of `insert_page_range`: the largest `size ≤ bound` with
`pages_per_block(size) ≤ count` and `start` aligned to `size`; reaches
`size = 0` otherwise (order 0 always satisfies both tests for
`count > 0`). -/
def find_size : Nat → Nat → Nat → Nat
  | 0, _, _ => 0
  | s + 1, start, count =>
    if pages_per_block (s + 1) ≤ count ∧ is_correct_alignment_for_order start (s + 1) then s + 1
    else find_size s start count

/-- The `while (count > 0)` loop of `insert_page_range`.  `fuel` bounds
the iteration count; `insert_page_range` supplies `count`, which
suffices because every iteration decrements `count` by at least 1. -/
def insert_page_range_go : Nat → St → Nat → Nat → M St
  | 0, st, _, _ => .ok st
  | fuel + 1, st, start, count =>
    if count = 0 then .ok st
    else do
      let size := find_size MAX_ORDER start count
      let st' ← free_pages st start size
      insert_page_range_go fuel st' (start + pages_per_block size) (count - pages_per_block size)

/-- `insert_page_range(start, count)`. -/
def insert_page_range (st : St) (start count : Nat) : M St :=
  insert_page_range_go count st start count

/-- The inner list scan of `remove_page_range` at one order: break (no
match in this order) at the first block whose start exceeds the sought
frame, return the first block whose span contains the sought frame,
otherwise advance. -/
def scan_area (sp bsize : Nat) : List Nat → Option Nat
  | [] => none
  | b :: rest =>
    if sp < b then none
    else if b ≤ sp ∧ sp ≤ b + bsize - 1 then some b
    else scan_area sp bsize rest

/-- The top-down order scan of `remove_page_range`, orders `order` down to
`0`: the first (highest-order) block whose span contains `sp`. -/
def scan_orders (st : St) (sp : Nat) : Nat → Option (Nat × Nat)
  | 0 =>
    match scan_area sp (pages_per_block 0) (getArea st 0) with
    | some b => some (0, b)
    | none => none
  | o + 1 =>
    match scan_area sp (pages_per_block (o + 1)) (getArea st (o + 1)) with
    | some b => some (o + 1, b)
    | none => scan_orders st sp o

/-- `remove_page_range(start, count)`.  If no free block contains `start`,
the source's `for (uint32_t order = MAX_ORDER; order >= 0; order--)` loop
decrements its unsigned counter past zero, wrapping to `2^32 - 1`, and
the next `_free_areas[order]` read is out of bounds: modelled as
`Err.ub`.  Otherwise the covering block is removed, the uncovered parts
are re-inserted, and if the sought range extends past the removed block
the function recurses on the remaining suffix.  `fuel` bounds the
recursion depth; `count` suffices because every recursive call removes at
least one page from the sought range. -/
def remove_page_range_go : Nat → St → Nat → Nat → M St
  | 0, st, _, count => if count = 0 then .ok st else .error .ub
  | fuel + 1, st, start, count =>
    if count = 0 then .ok st
    else
      let sp := start
      let ep := start + count - 1
      match scan_orders st sp MAX_ORDER with
      | none => .error .ub
      | some ob =>
        let block_end := ob.2 + pages_per_block ob.1 - 1
        do
          let st' ← remove_block st ob.2 ob.1
          if ep ≤ block_end then do
            let st'' ← insert_page_range st' ob.2 (sp - ob.2)
            insert_page_range st'' (ep + 1) (ob.2 + pages_per_block ob.1 - ep - 1)
          else do
            let st'' ← insert_page_range st' ob.2 (sp - ob.2)
            remove_page_range_go fuel st'' (block_end + 1) (count - (block_end - sp + 1))

/-- `remove_page_range(start, count)` entry point. -/
def remove_page_range (st : St) (start count : Nat) : M St :=
  remove_page_range_go count st start count

/-- The free-area table produced by `init`: every order's list cleared. -/
def init_free_areas : St := List.replicate (MAX_ORDER + 1) []

/-- Scenario A's table: a single order-3 block at frame 0. -/
def stA : St := [[], [], [], [0]] ++ List.replicate 15 []

/-- Scenario B's table: an order-1 block at frame 2, an order-2 block at
frame 4. -/
def stB : St := [[], [2], [4]] ++ List.replicate 16 []

/-- Scenario D's table: order-0 blocks at frames 2 and 5, order-1 blocks
at frames 0 and 6. -/
def stD : St := [[2, 5], [0, 6]] ++ List.replicate 17 []

/-- The exhaustion-boundary table: a single order-`MAX_ORDER` block at
frame 0 and nothing else. -/
def stMax : St := List.replicate MAX_ORDER [] ++ [[0]]

/-! ### Verification infrastructure: blocks, buddies, table invariants -/

/-- Page `p` lies inside the order-`i` block starting at frame `b`. -/
def inBlock (b i p : Nat) : Prop := b ≤ p ∧ p < b + 2 ^ i

/-- Page `p` is in the free pool: some order's list has a block covering it. -/
def freePage (st : St) (p : Nat) : Prop :=
  ∃ i ≤ MAX_ORDER, ∃ b ∈ getArea st i, inBlock b i p

/-- The frame number of the buddy of an aligned order-`i` block at `b`:
the value the source's `buddy_of` computes when it does not return `NULL`. -/
def buddyVal (b i : Nat) : Nat :=
  if b % 2 ^ (i + 1) = 0 then b + 2 ^ i else b - 2 ^ i

/-- The lower of an aligned order-`i` block and its buddy: the start of the
order-`i+1` parent block, and the block `merge_block` inserts one order up. -/
def parent_block (b i : Nat) : Nat :=
  if b % 2 ^ (i + 1) = 0 then b else b - 2 ^ i

/-- Invariant clause 1: every free block is aligned to its order. -/
def AlignedTable (st : St) : Prop :=
  ∀ i ≤ MAX_ORDER, ∀ b ∈ getArea st i, 2 ^ i ∣ b

/-- Invariant clause 4: free lists are address-sorted strictly ascending. -/
def SortedTable (st : St) : Prop :=
  ∀ i ≤ MAX_ORDER, List.Sorted (· < ·) (getArea st i)

/-- Invariant clause 2: distinct free blocks cover disjoint page ranges
(within an order's list and across orders). -/
def DisjointTable (st : St) : Prop :=
  ∀ i ≤ MAX_ORDER, ∀ j ≤ MAX_ORDER, ∀ b ∈ getArea st i, ∀ c ∈ getArea st j,
    ¬(i = j ∧ b = c) → b + 2 ^ i ≤ c ∨ c + 2 ^ j ≤ b

/-- Invariant clause 3 (eager merge): below `MAX_ORDER`, no block and its
buddy are simultaneously free at the same order. -/
def EagerTable (st : St) : Prop :=
  ∀ i < MAX_ORDER, ∀ b ∈ getArea st i, buddyVal b i ∉ getArea st i

/-- The full structural invariant of the free-area table. -/
def Inv (st : St) : Prop :=
  st.length = MAX_ORDER + 1 ∧ AlignedTable st ∧ SortedTable st ∧
    DisjointTable st ∧ EagerTable st

/-- The table after unlinking block `c` from order `o`'s list. -/
def eraseArea (st : St) (c o : Nat) : St := setArea st o ((getArea st o).erase c)

/-- All clauses of `Inv` except that the tracked block `b`, currently in
order `o`'s list, may have its buddy simultaneously free: any eager-merge
violation involves exactly the pair of `b` and its order-`o` buddy.  This
holds mid-flight through `repeated_merge` (tracking the just-inserted or
just-merged block) and through the split loop of `allocate_pages`
(tracking the block being split downward). -/
structure RInv (st : St) (b o : Nat) : Prop where
  len : st.length = MAX_ORDER + 1
  ord : o ≤ MAX_ORDER
  mem : b ∈ getArea st o
  al : AlignedTable st
  srt : SortedTable st
  dis : DisjointTable st
  egx : ∀ i < MAX_ORDER, ∀ x ∈ getArea st i, buddyVal x i ∈ getArea st i →
    i = o ∧ (x = b ∨ x = buddyVal b o)

/-- States reachable from an initialized (empty) table through the public
operations, each called with its documented precondition: a valid order
for `allocate`; an aligned, caller-owned (not currently free) block for
`free`; a not-currently-free range for `insert_range`; a fully covered
range for `remove_range`. -/
inductive Reachable : St → Prop where
  | init : Reachable init_free_areas
  | alloc (st st' : St) (k : Nat) (r : Option Nat) : Reachable st →
      k ≤ MAX_ORDER → allocate_pages st k = .ok (st', r) → Reachable st'
  | free (st st' : St) (b o : Nat) : Reachable st → o ≤ MAX_ORDER →
      2 ^ o ∣ b → (∀ p, b ≤ p → p < b + 2 ^ o → ¬ freePage st p) →
      free_pages st b o = .ok st' → Reachable st'
  | insertRange (st st' : St) (s n : Nat) : Reachable st →
      (∀ p, s ≤ p → p < s + n → ¬ freePage st p) →
      insert_page_range st s n = .ok st' → Reachable st'
  | removeRange (st st' : St) (s n : Nat) : Reachable st →
      (∀ p, s ≤ p → p < s + n → freePage st p) →
      remove_page_range st s n = .ok st' → Reachable st'

/-- The total number of free pages recorded in the table: each block of
order `i` contributes `2 ^ i` pages. -/
def totalFreePages (st : St) : Nat :=
  (List.range (MAX_ORDER + 1)).foldr
    (fun i acc => (getArea st i).length * 2 ^ i + acc) 0

instance inBlock_dec (b i p : Nat) : Decidable (inBlock b i p) :=
  inferInstanceAs (Decidable (b ≤ p ∧ p < b + 2 ^ i))

instance freePage_dec (st : St) (p : Nat) : Decidable (freePage st p) :=
  inferInstanceAs (Decidable (∃ i ≤ MAX_ORDER, ∃ b ∈ getArea st i, inBlock b i p))

instance alignedTable_dec (st : St) : Decidable (AlignedTable st) :=
  inferInstanceAs (Decidable (∀ i ≤ MAX_ORDER, ∀ b ∈ getArea st i, 2 ^ i ∣ b))

instance sortedTable_dec (st : St) : Decidable (SortedTable st) :=
  inferInstanceAs (Decidable (∀ i ≤ MAX_ORDER, List.Sorted (· < ·) (getArea st i)))

instance disjointTable_dec (st : St) : Decidable (DisjointTable st) :=
  inferInstanceAs (Decidable (∀ i ≤ MAX_ORDER, ∀ j ≤ MAX_ORDER, ∀ b ∈ getArea st i,
    ∀ c ∈ getArea st j, ¬(i = j ∧ b = c) → b + 2 ^ i ≤ c ∨ c + 2 ^ j ≤ b))

instance eagerTable_dec (st : St) : Decidable (EagerTable st) :=
  inferInstanceAs (Decidable (∀ i < MAX_ORDER, ∀ b ∈ getArea st i,
    buddyVal b i ∉ getArea st i))

instance inv_dec (st : St) : Decidable (Inv st) :=
  inferInstanceAs (Decidable (st.length = MAX_ORDER + 1 ∧ AlignedTable st ∧
    SortedTable st ∧ DisjointTable st ∧ EagerTable st))

/-! ### Arithmetic lemmas -/

theorem two_pow_pos (i : Nat) : 0 < 2 ^ i := Nat.pos_pow_of_pos i (by omega)

theorem two_pow_succ_eq (i : Nat) : 2 ^ (i + 1) = 2 ^ i + 2 ^ i := by
  rw [pow_succ]; omega

/-- Two distinct multiples of `d` are at least `d` apart. -/
theorem add_dvd_le_of_lt {d b c : Nat} (hb : d ∣ b) (hc : d ∣ c) (h : b < c) :
    b + d ≤ c := by
  have h2 : d ≤ c - b := Nat.le_of_dvd (by omega) (Nat.dvd_sub' hc hb)
  omega

/-- Two aligned power-of-two blocks that share a page are nested: the
larger contains the smaller. -/
theorem aligned_nest {i j b c p : Nat} (hij : i ≤ j) (hb : 2 ^ i ∣ b) (hc : 2 ^ j ∣ c)
    (h1 : b ≤ p) (h2 : p < b + 2 ^ i) (h3 : c ≤ p) (h4 : p < c + 2 ^ j) :
    c ≤ b ∧ b + 2 ^ i ≤ c + 2 ^ j := by
  have hci : (2 : Nat) ^ i ∣ c := dvd_trans (pow_dvd_pow 2 hij) hc
  have hcj : (2 : Nat) ^ i ∣ c + 2 ^ j := Nat.dvd_add hci (pow_dvd_pow 2 hij)
  constructor
  · by_contra hlt
    push_neg at hlt
    have := add_dvd_le_of_lt hb hci hlt
    omega
  · by_contra hlt
    push_neg at hlt
    rcases Nat.lt_or_ge b (c + 2 ^ j) with hgt | hle
    · have := add_dvd_le_of_lt hb hcj hgt
      omega
    · omega

/-- Intervals with no common page satisfy the disjointness disjunction. -/
theorem disjoint_of_no_common {b i c j : Nat}
    (h : ∀ p, inBlock b i p → inBlock c j p → False) :
    b + 2 ^ i ≤ c ∨ c + 2 ^ j ≤ b := by
  have hi := two_pow_pos i
  have hj := two_pow_pos j
  by_contra hcon
  push_neg at hcon
  rcases Nat.le_total b c with hbc | hbc
  · exact h c ⟨by omega, by omega⟩ ⟨by omega, by omega⟩
  · exact h b ⟨by omega, by omega⟩ ⟨by omega, by omega⟩

/-- The `Bool` alignment test in terms of divisibility. -/
theorem alignment_iff {b i : Nat} :
    is_correct_alignment_for_order b i = true ↔ 2 ^ i ∣ b := by
  simp [is_correct_alignment_for_order, pages_per_block, Nat.dvd_iff_mod_eq_zero]

/-- Core buddy dichotomy for an aligned block. -/
theorem buddy_core {b i : Nat} (hal : 2 ^ i ∣ b) :
    (2 ^ (i + 1) ∣ b ∧ buddyVal b i = b + 2 ^ i ∧ parent_block b i = b) ∨
    (¬ 2 ^ (i + 1) ∣ b ∧ 2 ^ i ≤ b ∧ buddyVal b i = b - 2 ^ i ∧
      2 ^ (i + 1) ∣ b - 2 ^ i ∧ parent_block b i = b - 2 ^ i) := by
  by_cases h : 2 ^ (i + 1) ∣ b
  · left
    have hm : b % 2 ^ (i + 1) = 0 := Nat.mod_eq_zero_of_dvd h
    exact ⟨h, by simp [buddyVal, hm], by simp [parent_block, hm]⟩
  · right
    have hm : ¬ b % 2 ^ (i + 1) = 0 := fun hz =>
      h (Nat.dvd_iff_mod_eq_zero.mpr hz)
    obtain ⟨q, hq⟩ := hal
    have hq2 : ¬ 2 ∣ q := by
      intro hdq
      obtain ⟨r, hr⟩ := hdq
      exact h ⟨r, by rw [hq, hr, pow_succ]; ring⟩
    rcases Nat.eq_zero_or_pos q with rfl | hq1
    · simp [hq] at h
    have hle : 2 ^ i ≤ b := by
      have hpos := two_pow_pos i
      calc 2 ^ i = 2 ^ i * 1 := by omega
        _ ≤ 2 ^ i * q := Nat.mul_le_mul (le_refl (2 ^ i)) hq1
        _ = b := hq.symm
    have hodd : q % 2 = 1 := by omega
    obtain ⟨r, hr⟩ : 2 ∣ q - 1 := by omega
    have hkey : b = 2 ^ (i + 1) * r + 2 ^ i := by
      have hqe : q = 2 * r + 1 := by omega
      rw [hq, pow_succ, hqe]
      ring
    have hal2 : 2 ^ i ∣ b := ⟨q, hq⟩
    have hsub : 2 ^ (i + 1) ∣ b - 2 ^ i := ⟨r, by omega⟩
    exact ⟨h, hle, by simp [buddyVal, hm], hsub, by simp [parent_block, hm]⟩

theorem buddyVal_aligned {b i : Nat} (hal : 2 ^ i ∣ b) : 2 ^ i ∣ buddyVal b i := by
  rcases buddy_core hal with ⟨_, he, _⟩ | ⟨_, _, he, _, _⟩ <;> rw [he]
  · exact Nat.dvd_add hal dvd_rfl
  · exact Nat.dvd_sub' hal dvd_rfl

theorem buddyVal_ne {b i : Nat} (hal : 2 ^ i ∣ b) : buddyVal b i ≠ b := by
  have := two_pow_pos i
  rcases buddy_core hal with ⟨_, he, _⟩ | ⟨_, hle, he, _, _⟩ <;> rw [he] <;> omega

theorem buddyVal_invol {b i : Nat} (hal : 2 ^ i ∣ b) :
    buddyVal (buddyVal b i) i = b := by
  have hpos := two_pow_pos i
  rcases buddy_core hal with ⟨hd, he, _⟩ | ⟨_, hle, he, hd, _⟩
  · rw [he, buddyVal]
    have hnd : ¬ (b + 2 ^ i) % 2 ^ (i + 1) = 0 := by
      intro hz
      have : (2 : Nat) ^ (i + 1) ∣ 2 ^ i :=
        (Nat.dvd_add_right hd).mp (Nat.dvd_iff_mod_eq_zero.mpr hz)
      have := Nat.le_of_dvd (two_pow_pos i) this
      have := two_pow_succ_eq i
      omega
    rw [if_neg hnd]
    omega
  · rw [he, buddyVal, if_pos (Nat.mod_eq_zero_of_dvd hd)]
    omega

theorem parent_block_aligned {b i : Nat} (hal : 2 ^ i ∣ b) :
    2 ^ (i + 1) ∣ parent_block b i := by
  rcases buddy_core hal with ⟨hd, _, he⟩ | ⟨_, _, _, hd, he⟩ <;> rw [he] <;> exact hd

/-- The parent block's pages are exactly those of the block and its buddy. -/
theorem parent_block_covers {b i : Nat} (hal : 2 ^ i ∣ b) (p : Nat) :
    inBlock (parent_block b i) (i + 1) p ↔ inBlock b i p ∨ inBlock (buddyVal b i) i p := by
  have hs := two_pow_succ_eq i
  have hpos := two_pow_pos i
  rcases buddy_core hal with ⟨_, he, hp⟩ | ⟨_, hle, he, _, hp⟩ <;>
    rw [he, hp] <;> unfold inBlock <;> omega

/-- `buddy_of` returns exactly `buddyVal` for an aligned in-range block. -/
theorem buddy_of_eq {b i : Nat} (hi : i < MAX_ORDER) (hal : 2 ^ i ∣ b) :
    buddy_of b i = some (buddyVal b i) := by
  have h1 : ¬ MAX_ORDER ≤ i := by omega
  have h2 : is_correct_alignment_for_order b i = true := alignment_iff.mpr hal
  unfold buddy_of
  rw [if_neg h1, if_neg (by simp [h2])]
  by_cases h3 : 2 ^ (i + 1) ∣ b
  · rw [if_pos (alignment_iff.mpr h3)]
    simp [buddyVal, Nat.mod_eq_zero_of_dvd h3, pages_per_block]
  · have h4 : is_correct_alignment_for_order b (i + 1) ≠ true := fun hc =>
      h3 (alignment_iff.mp hc)
    rw [if_neg (by simpa using h4)]
    have hm : ¬ b % 2 ^ (i + 1) = 0 := fun hz => h3 (Nat.dvd_iff_mod_eq_zero.mpr hz)
    simp [buddyVal, hm, pages_per_block]

/-! ### Lemmas about the list primitives -/

theorem mem_insert_block_list {x pfn : Nat} {l : List Nat} :
    x ∈ insert_block_list pfn l ↔ x = pfn ∨ x ∈ l := by
  induction l with
  | nil => simp [insert_block_list]
  | cons y ys ih =>
    by_cases h : y < pfn
    · simp only [insert_block_list, if_pos h, List.mem_cons, ih]
      tauto
    · simp only [insert_block_list, if_neg h, List.mem_cons]

theorem sorted_insert_block_list {pfn : Nat} {l : List Nat}
    (hs : List.Sorted (· < ·) l) (hn : pfn ∉ l) :
    List.Sorted (· < ·) (insert_block_list pfn l) := by
  induction l with
  | nil => simp [insert_block_list]
  | cons y ys ih =>
    rw [List.sorted_cons] at hs
    by_cases h : y < pfn
    · simp only [insert_block_list, if_pos h]
      rw [List.sorted_cons]
      refine ⟨fun b hb => ?_, ih hs.2 (fun hm => hn (List.mem_cons_of_mem _ hm))⟩
      rcases mem_insert_block_list.mp hb with rfl | hb
      · exact h
      · exact hs.1 b hb
    · have hne : pfn ≠ y := fun he => hn (he ▸ List.mem_cons_self _ _)
      have hlt : pfn < y := by omega
      simp only [insert_block_list, if_neg h]
      rw [List.sorted_cons]
      refine ⟨fun b hb => ?_, List.sorted_cons.mpr hs⟩
      rcases List.mem_cons.mp hb with rfl | hb
      · exact hlt
      · exact lt_trans hlt (hs.1 b hb)

theorem remove_block_list_eq (pfn : Nat) (l : List Nat) :
    remove_block_list pfn l = if pfn ∈ l then some (l.erase pfn) else none := by
  induction l with
  | nil => simp [remove_block_list]
  | cons y ys ih =>
    by_cases h : y = pfn
    · subst h
      simp [remove_block_list, List.erase_cons_head]
    · have hb : ¬ (y == pfn) = true := by simp [h]
      simp only [remove_block_list, if_neg h, ih, List.erase_cons_tail hb]
      by_cases hm : pfn ∈ ys
      · simp [hm, h, Ne.symm h]
      · simp [hm, h, Ne.symm h]

theorem sorted_erase {l : List Nat} (hs : List.Sorted (· < ·) l) (a : Nat) :
    List.Sorted (· < ·) (l.erase a) :=
  List.Pairwise.sublist (List.erase_sublist a l) hs

/-! ### Lemmas about table reads and writes -/

theorem length_setArea (st : St) (i : Nat) (l : List Nat) :
    (setArea st i l).length = st.length := List.length_set ..

theorem length_insert_block (st : St) (pfn i : Nat) :
    (insert_block st pfn i).length = st.length := List.length_set ..

theorem getArea_default {st : St} {i : Nat} (h : st.length ≤ i) : getArea st i = [] := by
  unfold getArea
  rw [List.getD_eq_getElem?_getD, List.getElem?_eq_none h]
  rfl

theorem getArea_setArea {st : St} (i : Nat) {j : Nat} {l : List Nat} (hi : i < st.length) :
    getArea (setArea st i l) j = if i = j then l else getArea st j := by
  by_cases h : i = j
  · subst h
    unfold getArea setArea
    rw [List.getD_eq_getElem?_getD, List.getElem?_set_self hi]
    simp
  · unfold getArea setArea
    rw [List.getD_eq_getElem?_getD, List.getElem?_set_ne h, if_neg h,
      List.getD_eq_getElem?_getD]

theorem getArea_insert_block {st : St} (i : Nat) {j pfn : Nat} (hi : i < st.length) :
    getArea (insert_block st pfn i) j =
      if i = j then insert_block_list pfn (getArea st i) else getArea st j := by
  unfold insert_block
  exact getArea_setArea i hi

/-! ### Monad reduction lemmas -/

theorem ok_bind {α β : Type} (a : α) (f : α → M β) : (Except.ok a >>= f) = f a := rfl

theorem error_bind {α β : Type} (e : Err) (f : α → M β) :
    ((Except.error e : M α) >>= f) = Except.error e := rfl

/-! ### Removing one free block from the table -/

theorem remove_block_ok {st : St} {c o : Nat} (hc : c ∈ getArea st o) :
    remove_block st c o = .ok (eraseArea st c o) := by
  unfold remove_block eraseArea
  rw [remove_block_list_eq, if_pos hc]

theorem length_eraseArea (st : St) (c o : Nat) :
    (eraseArea st c o).length = st.length := List.length_set ..

theorem getArea_eraseArea {st : St} (c o : Nat) {i : Nat} (ho : o < st.length) :
    getArea (eraseArea st c o) i =
      if o = i then (getArea st o).erase c else getArea st i :=
  getArea_setArea o ho

theorem erase_mem_forward {st : St} {c o : Nat} (ho : o < st.length)
    (hnd : (getArea st o).Nodup) {i x : Nat}
    (hx : x ∈ getArea (eraseArea st c o) i) :
    x ∈ getArea st i ∧ ¬(i = o ∧ x = c) := by
  rw [getArea_eraseArea c o ho] at hx
  by_cases h : o = i
  · subst h
    rw [if_pos rfl, hnd.mem_erase_iff] at hx
    exact ⟨hx.2, fun hco => hx.1 hco.2⟩
  · rw [if_neg h] at hx
    exact ⟨hx, fun hco => h hco.1.symm⟩

theorem erase_mem_backward {st : St} {c o : Nat} (ho : o < st.length)
    (hnd : (getArea st o).Nodup) {i x : Nat}
    (hx : x ∈ getArea st i) (hne : ¬(i = o ∧ x = c)) :
    x ∈ getArea (eraseArea st c o) i := by
  rw [getArea_eraseArea c o ho]
  by_cases h : o = i
  · subst h
    rw [if_pos rfl, hnd.mem_erase_iff]
    exact ⟨fun he => hne ⟨rfl, he⟩, hx⟩
  · rw [if_neg h]
    exact hx

theorem erase_sorted_table {st : St} {c o : Nat} (ho : o < st.length)
    (hsrt : SortedTable st) : SortedTable (eraseArea st c o) := by
  intro i hi
  rw [getArea_eraseArea c o ho]
  by_cases h : o = i
  · rw [if_pos h]
    exact sorted_erase (h ▸ hsrt i hi) c
  · rw [if_neg h]
    exact hsrt i hi

theorem erase_aligned_table {st : St} {c o : Nat} (ho : o < st.length)
    (hnd : (getArea st o).Nodup) (hal : AlignedTable st) :
    AlignedTable (eraseArea st c o) :=
  fun i hi x hx => hal i hi x (erase_mem_forward ho hnd hx).1

theorem erase_disjoint_table {st : St} {c o : Nat} (ho : o < st.length)
    (hnd : (getArea st o).Nodup) (hdis : DisjointTable st) :
    DisjointTable (eraseArea st c o) :=
  fun i hi j hj b hb d hd hne =>
    hdis i hi j hj b (erase_mem_forward ho hnd hb).1 d (erase_mem_forward ho hnd hd).1 hne

theorem erase_freePage {st : St} {c o : Nat} (hlen : st.length = MAX_ORDER + 1)
    (ho : o ≤ MAX_ORDER) (hc : c ∈ getArea st o)
    (hsrt : SortedTable st) (hdis : DisjointTable st) (p : Nat) :
    freePage (eraseArea st c o) p ↔ freePage st p ∧ ¬ inBlock c o p := by
  have ho' : o < st.length := by omega
  have hnd : (getArea st o).Nodup := (hsrt o ho).nodup
  constructor
  · rintro ⟨i, hi, d, hd, hdp⟩
    obtain ⟨hd1, hd2⟩ := erase_mem_forward ho' hnd hd
    refine ⟨⟨i, hi, d, hd1, hdp⟩, fun hcp => ?_⟩
    have hdisj := hdis i hi o ho d hd1 c hc hd2
    obtain ⟨hp1, hp2⟩ := hdp
    obtain ⟨hq1, hq2⟩ := hcp
    omega
  · rintro ⟨⟨i, hi, d, hd, hdp⟩, hnc⟩
    refine ⟨i, hi, d, erase_mem_backward ho' hnd hd ?_, hdp⟩
    rintro ⟨rfl, rfl⟩
    exact hnc hdp

/-! ### Inserting a block into the table -/

theorem freePage_insert_block {st : St} {o b : Nat} (hlen : st.length = MAX_ORDER + 1)
    (ho : o ≤ MAX_ORDER) (p : Nat) :
    freePage (insert_block st b o) p ↔ freePage st p ∨ inBlock b o p := by
  have ho' : o < st.length := by omega
  constructor
  · rintro ⟨i, hi, c, hc, hcp⟩
    rw [getArea_insert_block o ho'] at hc
    by_cases ho2 : o = i
    · subst ho2
      rw [if_pos rfl] at hc
      rcases mem_insert_block_list.mp hc with rfl | hc
      · exact Or.inr hcp
      · exact Or.inl ⟨o, hi, c, hc, hcp⟩
    · rw [if_neg ho2] at hc
      exact Or.inl ⟨i, hi, c, hc, hcp⟩
  · rintro (⟨i, hi, c, hc, hcp⟩ | hbp)
    · refine ⟨i, hi, c, ?_, hcp⟩
      rw [getArea_insert_block o ho']
      by_cases ho2 : o = i
      · subst ho2
        rw [if_pos rfl]
        exact mem_insert_block_list.mpr (Or.inr hc)
      · rw [if_neg ho2]
        exact hc
    · refine ⟨o, ho, b, ?_, hbp⟩
      rw [getArea_insert_block o ho', if_pos rfl]
      exact mem_insert_block_list.mpr (Or.inl rfl)

/-! ### The relaxed invariant for in-flight merge and split loops -/

theorem rinv_of_inv {st : St} {b o : Nat} (h : Inv st) (ho : o ≤ MAX_ORDER)
    (hb : b ∈ getArea st o) : RInv st b o :=
  ⟨h.1, ho, hb, h.2.1, h.2.2.1, h.2.2.2.1,
   fun i hi x hx hbx => absurd hbx (h.2.2.2.2 i hi x hx)⟩

theorem inv_of_rinv {st : St} {b o : Nat} (h : RInv st b o)
    (hnb : buddyVal b o ∉ getArea st o ∨ MAX_ORDER ≤ o) : Inv st := by
  refine ⟨h.len, h.al, h.srt, h.dis, fun i hi x hx hbx => ?_⟩
  obtain ⟨rfl, hcase⟩ := h.egx i hi x hx hbx
  rcases hnb with hnb | hnb
  · rcases hcase with rfl | rfl
    · exact hnb hbx
    · exact hnb hx
  · omega

/-- Removing the tracked block restores the full invariant. -/
theorem remove_tracked {st : St} {b o : Nat} (h : RInv st b o) :
    remove_block st b o = .ok (eraseArea st b o) ∧ Inv (eraseArea st b o) ∧
      (∀ p, freePage (eraseArea st b o) p ↔ freePage st p ∧ ¬ inBlock b o p) := by
  have ho' : o < st.length := by have := h.len; have := h.ord; omega
  have hnd : (getArea st o).Nodup := (h.srt o h.ord).nodup
  have hal : 2 ^ o ∣ b := h.al o h.ord b h.mem
  refine ⟨remove_block_ok h.mem, ⟨?_, ?_, ?_, ?_, ?_⟩,
    erase_freePage h.len h.ord h.mem h.srt h.dis⟩
  · rw [length_eraseArea]
    exact h.len
  · exact erase_aligned_table ho' hnd h.al
  · exact erase_sorted_table ho' h.srt
  · exact erase_disjoint_table ho' hnd h.dis
  · intro i hi x hx hbx
    obtain ⟨hx1, hx2⟩ := erase_mem_forward ho' hnd hx
    obtain ⟨hbx1, hbx2⟩ := erase_mem_forward ho' hnd hbx
    obtain ⟨hio, hcase⟩ := h.egx i hi x hx1 hbx1
    rcases hcase with rfl | rfl
    · exact hx2 ⟨hio, rfl⟩
    · exact hbx2 ⟨hio, by rw [hio, buddyVal_invol hal]⟩

/-! ### One merge step of `repeated_merge` -/

theorem merge_step {st : St} {b o : Nat} (h : RInv st b o) (ho : o < MAX_ORDER)
    (hbud : buddyVal b o ∈ getArea st o) :
    ∃ st', merge_block st b o = .ok (st', parent_block b o) ∧
      RInv st' (parent_block b o) (o + 1) ∧
      (∀ p, freePage st' p ↔ freePage st p) := by
  have hlen := h.len
  have ho1 : o ≤ MAX_ORDER := h.ord
  have ho' : o < st.length := by omega
  have hal : 2 ^ o ∣ b := h.al o ho1 b h.mem
  have hnd : (getArea st o).Nodup := (h.srt o ho1).nodup
  have hbne : buddyVal b o ≠ b := buddyVal_ne hal
  have hbal : 2 ^ o ∣ buddyVal b o := buddyVal_aligned hal
  have hpal : 2 ^ (o + 1) ∣ parent_block b o := parent_block_aligned hal
  have hbudmem1 : buddyVal b o ∈ getArea (eraseArea st b o) o := by
    rw [getArea_eraseArea b o ho', if_pos rfl, hnd.mem_erase_iff]
    exact ⟨hbne, hbud⟩
  have hlen1 : (eraseArea st b o).length = MAX_ORDER + 1 := by
    rw [length_eraseArea]; exact hlen
  have hlen2 : (eraseArea (eraseArea st b o) (buddyVal b o) o).length = MAX_ORDER + 1 := by
    rw [length_eraseArea]; exact hlen1
  have hred : merge_block st b o =
      .ok (insert_block (eraseArea (eraseArea st b o) (buddyVal b o) o)
            (parent_block b o) (o + 1), parent_block b o) := by
    have h1 : is_correct_alignment_for_order b o = true := alignment_iff.mpr hal
    rcases buddy_core hal with ⟨hd, hbv, hp⟩ | ⟨hd, hle, hbv, hd2, hp⟩
    · have h2 : is_correct_alignment_for_order b (o + 1) = true := alignment_iff.mpr hd
      simp only [merge_block, h1, not_true_eq_false, if_false, buddy_of_eq ho hal,
        remove_block_ok h.mem, ok_bind, remove_block_ok hbudmem1, h2, if_true, hp]
    · have h2 : is_correct_alignment_for_order b (o + 1) = false := by
        rw [Bool.eq_false_iff]
        intro hc
        exact hd (alignment_iff.mp hc)
      have hbm : b - 2 ^ o ∈ getArea (eraseArea st b o) o := hbv ▸ hbudmem1
      simp only [merge_block, h1, not_true_eq_false, if_false, buddy_of_eq ho hal,
        remove_block_ok h.mem, ok_bind, hbv, remove_block_ok hbm, h2, Bool.false_eq_true,
        if_false, hp]
  have hga2 : ∀ i, getArea (eraseArea (eraseArea st b o) (buddyVal b o) o) i =
      if o = i then ((getArea st o).erase b).erase (buddyVal b o) else getArea st i := by
    intro i
    rw [getArea_eraseArea (buddyVal b o) o
      (show o < (eraseArea st b o).length by omega)]
    by_cases h1 : o = i
    · rw [if_pos h1, if_pos h1]
      subst h1
      rw [getArea_eraseArea b o ho', if_pos rfl]
    · rw [if_neg h1, if_neg h1, getArea_eraseArea b o ho', if_neg h1]
  have harea : ∀ i,
      getArea (insert_block (eraseArea (eraseArea st b o) (buddyVal b o) o)
        (parent_block b o) (o + 1)) i =
      if o = i then ((getArea st o).erase b).erase (buddyVal b o)
      else if o + 1 = i then insert_block_list (parent_block b o) (getArea st (o + 1))
      else getArea st i := by
    intro i
    rw [getArea_insert_block (o + 1)
      (show o + 1 < (eraseArea (eraseArea st b o) (buddyVal b o) o).length by omega)]
    by_cases h2 : o + 1 = i
    · subst h2
      rw [if_pos rfl, if_neg (show ¬ o = o + 1 by omega), if_pos rfl, hga2,
        if_neg (show ¬ o = o + 1 by omega)]
    · rw [if_neg h2, hga2]
      by_cases h1 : o = i
      · rw [if_pos h1, if_pos h1]
      · rw [if_neg h1, if_neg h1, if_neg h2]
  have hnd1 : ((getArea st o).erase b).Nodup := hnd.erase b
  have hmem_char : ∀ i x,
      x ∈ getArea (insert_block (eraseArea (eraseArea st b o) (buddyVal b o) o)
            (parent_block b o) (o + 1)) i →
      (x ∈ getArea st i ∧ ¬(i = o ∧ x = b) ∧ ¬(i = o ∧ x = buddyVal b o)) ∨
      (i = o + 1 ∧ x = parent_block b o) := by
    intro i x hx
    rw [harea i] at hx
    by_cases h1 : o = i
    · subst h1
      rw [if_pos rfl] at hx
      left
      have hx1 := List.mem_of_mem_erase hx
      have hx2 := List.mem_of_mem_erase hx1
      refine ⟨hx2, ?_, ?_⟩
      · rintro ⟨-, rfl⟩
        exact (hnd.mem_erase_iff.mp hx1).1 rfl
      · rintro ⟨-, rfl⟩
        exact (hnd1.mem_erase_iff.mp hx).1 rfl
    · rw [if_neg h1] at hx
      by_cases h2 : o + 1 = i
      · subst h2
        rw [if_pos rfl] at hx
        rcases mem_insert_block_list.mp hx with rfl | hx
        · exact Or.inr ⟨rfl, rfl⟩
        · exact Or.inl ⟨hx, fun hc => h1 hc.1.symm, fun hc => h1 hc.1.symm⟩
      · rw [if_neg h2] at hx
        exact Or.inl ⟨hx, fun hc => h1 hc.1.symm, fun hc => h1 hc.1.symm⟩
  have hparent_notin : parent_block b o ∉ getArea st (o + 1) := by
    intro hmem
    have hpos := two_pow_pos o
    have hbb : inBlock b o b := ⟨le_refl b, by omega⟩
    have hpb : inBlock (parent_block b o) (o + 1) b :=
      (parent_block_covers hal b).mpr (Or.inl hbb)
    have hdisj := h.dis (o + 1) (by omega) o ho1 (parent_block b o) hmem b h.mem
      (fun hc => by omega)
    obtain ⟨hq1, hq2⟩ := hpb
    omega
  have hdis_parent : ∀ j y, j ≤ MAX_ORDER → y ∈ getArea st j →
      ¬(j = o ∧ y = b) → ¬(j = o ∧ y = buddyVal b o) →
      parent_block b o + 2 ^ (o + 1) ≤ y ∨ y + 2 ^ j ≤ parent_block b o := by
    intro j y hj hy hyb hybud
    apply disjoint_of_no_common
    intro p hpp hpy
    rcases (parent_block_covers hal p).mp hpp with hpb | hpbud
    · have hd := h.dis o ho1 j hj b h.mem y hy (fun hc => hyb ⟨hc.1.symm, hc.2.symm⟩)
      obtain ⟨h1, h2⟩ := hpb
      obtain ⟨h3, h4⟩ := hpy
      omega
    · have hd := h.dis o ho1 j hj (buddyVal b o) hbud y hy
        (fun hc => hybud ⟨hc.1.symm, hc.2.symm⟩)
      obtain ⟨h1, h2⟩ := hpbud
      obtain ⟨h3, h4⟩ := hpy
      omega
  refine ⟨_, hred, ⟨?_, by omega, ?_, ?_, ?_, ?_, ?_⟩, ?_⟩
  · rw [length_insert_block, length_eraseArea, length_eraseArea]
    exact hlen
  · rw [harea (o + 1), if_neg (show ¬ o = o + 1 by omega), if_pos rfl]
    exact mem_insert_block_list.mpr (Or.inl rfl)
  · intro i hi x hx
    rcases hmem_char i x hx with ⟨hxA, -, -⟩ | ⟨rfl, rfl⟩
    · exact h.al i hi x hxA
    · exact dvd_trans (pow_dvd_pow 2 (by omega)) hpal
  · intro i hi
    rw [harea i]
    by_cases h1 : o = i
    · rw [if_pos h1]
      exact sorted_erase (sorted_erase (h.srt o ho1) b) (buddyVal b o)
    · rw [if_neg h1]
      by_cases h2 : o + 1 = i
      · rw [if_pos h2]
        exact sorted_insert_block_list (h.srt (o + 1) (by omega)) hparent_notin
      · rw [if_neg h2]
        exact h.srt i hi
  · intro i hi j hj x hx y hy hne
    rcases hmem_char i x hx with ⟨hxA, hxb, hxbud⟩ | ⟨rfl, rfl⟩
    · rcases hmem_char j y hy with ⟨hyA, hyb, hybud⟩ | ⟨rfl, rfl⟩
      · exact h.dis i hi j hj x hxA y hyA hne
      · rcases hdis_parent i x hi hxA hxb hxbud with hd | hd
        · exact Or.inr hd
        · exact Or.inl hd
    · rcases hmem_char j y hy with ⟨hyA, hyb, hybud⟩ | ⟨rfl, rfl⟩
      · rcases hdis_parent j y hj hyA hyb hybud with hd | hd
        · exact Or.inl hd
        · exact Or.inr hd
      · exact absurd ⟨rfl, rfl⟩ hne
  · intro i hi x hx hbx
    rcases hmem_char i x hx with ⟨hxA, hxb, hxbud⟩ | ⟨rfl, rfl⟩
    · rcases hmem_char i (buddyVal x i) hbx with ⟨hbxA, -, -⟩ | ⟨hio, hbp⟩
      · obtain ⟨hio, hcase⟩ := h.egx i hi x hxA hbxA
        rcases hcase with rfl | rfl
        · exact absurd ⟨hio, rfl⟩ hxb
        · exact absurd ⟨hio, rfl⟩ hxbud
      · subst hio
        have hxal : 2 ^ (o + 1) ∣ x := h.al (o + 1) (by omega) x hxA
        refine ⟨rfl, Or.inr ?_⟩
        rw [← hbp, buddyVal_invol hxal]
    · exact ⟨rfl, Or.inl rfl⟩
  · intro p
    have h1 : freePage (insert_block (eraseArea (eraseArea st b o) (buddyVal b o) o)
          (parent_block b o) (o + 1)) p ↔
        freePage (eraseArea (eraseArea st b o) (buddyVal b o) o) p ∨
          inBlock (parent_block b o) (o + 1) p :=
      freePage_insert_block hlen2 (by omega) p
    have hsrt1 : SortedTable (eraseArea st b o) := erase_sorted_table ho' h.srt
    have hdis1 : DisjointTable (eraseArea st b o) := erase_disjoint_table ho' hnd h.dis
    have h2 : freePage (eraseArea (eraseArea st b o) (buddyVal b o) o) p ↔
        freePage (eraseArea st b o) p ∧ ¬ inBlock (buddyVal b o) o p :=
      erase_freePage hlen1 ho1 hbudmem1 hsrt1 hdis1 p
    have h3 : freePage (eraseArea st b o) p ↔ freePage st p ∧ ¬ inBlock b o p :=
      erase_freePage hlen ho1 h.mem h.srt h.dis p
    rw [h1, h2, h3]
    constructor
    · rintro (⟨⟨hF, -⟩, -⟩ | hpar)
      · exact hF
      · rcases (parent_block_covers hal p).mp hpar with hb | hbu
        · exact ⟨o, ho1, b, h.mem, hb⟩
        · exact ⟨o, ho1, buddyVal b o, hbud, hbu⟩
    · intro hF
      by_cases hb : inBlock b o p
      · exact Or.inr ((parent_block_covers hal p).mpr (Or.inl hb))
      by_cases hbu : inBlock (buddyVal b o) o p
      · exact Or.inr ((parent_block_covers hal p).mpr (Or.inr hbu))
      · exact Or.inl ⟨⟨hF, hb⟩, hbu⟩

/-! ### The merge loop and `free_pages` -/

theorem repeated_merge_go_merge {fuel : Nat} {st : St} {b o bud : Nat}
    (ho : o < MAX_ORDER) (hb : buddy_of b o = some bud) (hm : bud ∈ getArea st o) :
    repeated_merge_go (fuel + 1) st b o =
      merge_block st b o >>= fun r => repeated_merge_go fuel r.1 r.2 (o + 1) := by
  simp [repeated_merge_go, ho, hb, hm]

theorem repeated_merge_go_stop {fuel : Nat} {st : St} {b o bud : Nat}
    (ho : o < MAX_ORDER) (hb : buddy_of b o = some bud) (hm : bud ∉ getArea st o) :
    repeated_merge_go (fuel + 1) st b o = .ok st := by
  simp [repeated_merge_go, ho, hb, hm]

theorem repeated_merge_go_none {fuel : Nat} {st : St} {b o : Nat}
    (ho : o < MAX_ORDER) (hb : buddy_of b o = none) :
    repeated_merge_go (fuel + 1) st b o = .ok st := by
  simp [repeated_merge_go, ho, hb]

theorem repeated_merge_go_stop_top {fuel : Nat} {st : St} {b o : Nat}
    (ho : ¬ o < MAX_ORDER) :
    repeated_merge_go (fuel + 1) st b o = .ok st := by
  simp [repeated_merge_go, ho]

theorem repeated_merge_go_ok : ∀ (fuel : Nat) (st : St) (b o : Nat), RInv st b o →
    MAX_ORDER ≤ o + fuel →
    ∃ st', repeated_merge_go fuel st b o = .ok st' ∧ Inv st' ∧
      (∀ p, freePage st' p ↔ freePage st p) := by
  intro fuel
  induction fuel with
  | zero =>
    intro st b o h hfuel
    exact ⟨st, rfl, inv_of_rinv h (Or.inr (by omega)), fun p => Iff.rfl⟩
  | succ fuel ih =>
    intro st b o h hfuel
    by_cases ho : o < MAX_ORDER
    · have hal : 2 ^ o ∣ b := h.al o h.ord b h.mem
      by_cases hmem : buddyVal b o ∈ getArea st o
      · obtain ⟨st1, hred, hrinv, hF⟩ := merge_step h ho hmem
        obtain ⟨st2, hrun, hinv, hF2⟩ := ih st1 (parent_block b o) (o + 1) hrinv (by omega)
        refine ⟨st2, ?_, hinv, fun p => (hF2 p).trans (hF p)⟩
        rw [repeated_merge_go_merge ho (buddy_of_eq ho hal) hmem, hred, ok_bind]
        exact hrun
      · exact ⟨st, repeated_merge_go_stop ho (buddy_of_eq ho hal) hmem,
          inv_of_rinv h (Or.inl hmem), fun p => Iff.rfl⟩
    · exact ⟨st, repeated_merge_go_stop_top ho,
        inv_of_rinv h (Or.inr (by omega)), fun p => Iff.rfl⟩

/-- Inserting a fully fresh aligned block yields the relaxed invariant. -/
theorem rinv_insert_fresh {st : St} {b o : Nat} (hInv : Inv st) (ho : o ≤ MAX_ORDER)
    (hal : 2 ^ o ∣ b) (hfresh : ∀ p, inBlock b o p → ¬ freePage st p) :
    RInv (insert_block st b o) b o := by
  obtain ⟨hlen, hA, hS, hD, hE⟩ := hInv
  have ho' : o < st.length := by omega
  have hpos := two_pow_pos o
  have hbb : inBlock b o b := ⟨le_refl b, by omega⟩
  have hb_not : ∀ i, i ≤ MAX_ORDER → b ∉ getArea st i := by
    intro i hi hmem
    exact hfresh b hbb ⟨i, hi, b, hmem, le_refl b, by have := two_pow_pos i; omega⟩
  have hdisB : ∀ j y, j ≤ MAX_ORDER → y ∈ getArea st j →
      b + 2 ^ o ≤ y ∨ y + 2 ^ j ≤ b := by
    intro j y hj hy
    apply disjoint_of_no_common
    intro p hpb hpy
    exact hfresh p hpb ⟨j, hj, y, hy, hpy⟩
  have hmemc : ∀ i x, x ∈ getArea (insert_block st b o) i →
      x ∈ getArea st i ∨ (i = o ∧ x = b) := by
    intro i x hx
    rw [getArea_insert_block o ho'] at hx
    by_cases h1 : o = i
    · subst h1
      rw [if_pos rfl] at hx
      rcases mem_insert_block_list.mp hx with rfl | hx
      · exact Or.inr ⟨rfl, rfl⟩
      · exact Or.inl hx
    · rw [if_neg h1] at hx
      exact Or.inl hx
  refine ⟨by rw [length_insert_block]; exact hlen, ho, ?_, ?_, ?_, ?_, ?_⟩
  · rw [getArea_insert_block o ho', if_pos rfl]
    exact mem_insert_block_list.mpr (Or.inl rfl)
  · intro i hi x hx
    rcases hmemc i x hx with hx | ⟨rfl, rfl⟩
    · exact hA i hi x hx
    · exact hal
  · intro i hi
    rw [getArea_insert_block o ho']
    by_cases h1 : o = i
    · rw [if_pos h1]
      exact sorted_insert_block_list (h1 ▸ hS o ho) (h1 ▸ hb_not o ho)
    · rw [if_neg h1]
      exact hS i hi
  · intro i hi j hj x hx y hy hne
    rcases hmemc i x hx with hx' | ⟨rfl, rfl⟩
    · rcases hmemc j y hy with hy' | ⟨rfl, rfl⟩
      · exact hD i hi j hj x hx' y hy' hne
      · rcases hdisB i x hi hx' with hd | hd
        · exact Or.inr hd
        · exact Or.inl hd
    · rcases hmemc j y hy with hy' | ⟨rfl, rfl⟩
      · exact hdisB j y hj hy'
      · exact absurd ⟨rfl, rfl⟩ hne
  · intro i hi x hx hbx
    rcases hmemc i x hx with hx' | ⟨rfl, rfl⟩
    · rcases hmemc i (buddyVal x i) hbx with hbx' | ⟨hio, hbb'⟩
      · exact absurd hbx' (hE i hi x hx')
      · refine ⟨hio, Or.inr ?_⟩
        have hxal : 2 ^ i ∣ x := hA i (le_of_lt hi) x hx'
        rw [← hio, ← hbb', buddyVal_invol hxal]
    · exact ⟨rfl, Or.inl rfl⟩

/-- `free_pages` on a fresh aligned block: succeeds, preserves the
invariant, and adds exactly the block's pages to the free pool. -/
theorem free_pages_ok {st : St} {b o : Nat} (hInv : Inv st) (ho : o ≤ MAX_ORDER)
    (hal : 2 ^ o ∣ b) (hfresh : ∀ p, inBlock b o p → ¬ freePage st p) :
    ∃ st', free_pages st b o = .ok st' ∧ Inv st' ∧
      (∀ p, freePage st' p ↔ (freePage st p ∨ inBlock b o p)) := by
  have hrinv := rinv_insert_fresh hInv ho hal hfresh
  obtain ⟨st', hrun, hinv, hF⟩ :=
    repeated_merge_go_ok (MAX_ORDER - o) (insert_block st b o) b o hrinv (by omega)
  refine ⟨st', ?_, hinv, fun p => ?_⟩
  · unfold free_pages repeated_merge
    rw [if_neg (by simp [alignment_iff.mpr hal])]
    exact hrun
  · rw [hF p, freePage_insert_block hInv.1 ho p]

/-! ### `insert_page_range` -/

theorem find_size_le : ∀ (bound s n : Nat), find_size bound s n ≤ bound := by
  intro bound
  induction bound with
  | zero => intro s n; simp [find_size]
  | succ b ih =>
    intro s n
    simp only [find_size]
    by_cases h : pages_per_block (b + 1) ≤ n ∧ is_correct_alignment_for_order s (b + 1) = true
    · rw [if_pos h]
    · rw [if_neg h]
      exact le_trans (ih s n) (by omega)

theorem find_size_spec : ∀ (bound s n : Nat), 0 < n →
    2 ^ find_size bound s n ≤ n ∧ 2 ^ find_size bound s n ∣ s := by
  intro bound
  induction bound with
  | zero =>
    intro s n hn
    simpa [find_size] using hn
  | succ b ih =>
    intro s n hn
    simp only [find_size]
    by_cases h : pages_per_block (b + 1) ≤ n ∧ is_correct_alignment_for_order s (b + 1) = true
    · rw [if_pos h]
      exact ⟨h.1, alignment_iff.mp h.2⟩
    · rw [if_neg h]
      exact ih s n hn

theorem find_size_max : ∀ (bound s n k : Nat), k ≤ bound → 2 ^ k ≤ n → 2 ^ k ∣ s →
    k ≤ find_size bound s n := by
  intro bound
  induction bound with
  | zero => intro s n k hk _ _; omega
  | succ b ih =>
    intro s n k hk h1 h2
    simp only [find_size]
    by_cases h : pages_per_block (b + 1) ≤ n ∧ is_correct_alignment_for_order s (b + 1) = true
    · rw [if_pos h]
      omega
    · rw [if_neg h]
      rcases Nat.lt_or_ge k (b + 1) with hlt | hge
      · exact ih s n k (by omega) h1 h2
      · exfalso
        have hke : k = b + 1 := by omega
        subst hke
        exact h ⟨h1, alignment_iff.mpr h2⟩

theorem insert_page_range_go_ok : ∀ (fuel : Nat) (st : St) (s n : Nat), Inv st →
    n ≤ fuel → (∀ p, s ≤ p → p < s + n → ¬ freePage st p) →
    ∃ st', insert_page_range_go fuel st s n = .ok st' ∧ Inv st' ∧
      (∀ p, freePage st' p ↔ (freePage st p ∨ (s ≤ p ∧ p < s + n))) := by
  intro fuel
  induction fuel with
  | zero =>
    intro st s n hInv hn hfresh
    have hz : n = 0 := by omega
    subst hz
    refine ⟨st, rfl, hInv, fun p => ⟨Or.inl, ?_⟩⟩
    rintro (h | h)
    · exact h
    · omega
  | succ fuel ih =>
    intro st s n hInv hn hfresh
    by_cases hn0 : n = 0
    · subst hn0
      refine ⟨st, by simp [insert_page_range_go], hInv, fun p => ⟨Or.inl, ?_⟩⟩
      rintro (h | h)
      · exact h
      · omega
    · have hnpos : 0 < n := by omega
      obtain ⟨hle, hdvd⟩ := find_size_spec MAX_ORDER s n hnpos
      have hsize_le : find_size MAX_ORDER s n ≤ MAX_ORDER := find_size_le ..
      have hpos := two_pow_pos (find_size MAX_ORDER s n)
      have hfresh1 : ∀ p, inBlock s (find_size MAX_ORDER s n) p → ¬ freePage st p := by
        intro p hp
        obtain ⟨hp1, hp2⟩ := hp
        exact hfresh p hp1 (by omega)
      obtain ⟨st1, hrun1, hinv1, hF1⟩ := free_pages_ok hInv hsize_le hdvd hfresh1
      have hfresh2 : ∀ p, s + 2 ^ find_size MAX_ORDER s n ≤ p →
          p < s + 2 ^ find_size MAX_ORDER s n + (n - 2 ^ find_size MAX_ORDER s n) →
          ¬ freePage st1 p := by
        intro p h1 h2 hF
        rcases (hF1 p).mp hF with hF' | hB
        · exact hfresh p (by omega) (by omega) hF'
        · obtain ⟨hb1, hb2⟩ := hB
          omega
      obtain ⟨st2, hrun2, hinv2, hF2⟩ := ih st1 (s + 2 ^ find_size MAX_ORDER s n)
        (n - 2 ^ find_size MAX_ORDER s n) hinv1 (by omega) hfresh2
      refine ⟨st2, ?_, hinv2, fun p => ?_⟩
      · simp only [insert_page_range_go, if_neg hn0]
        rw [hrun1, ok_bind]
        exact hrun2
      · rw [hF2 p, hF1 p]
        unfold inBlock
        constructor
        · rintro ((h | h) | h)
          · exact Or.inl h
          · right; omega
          · right; omega
        · rintro (h | h)
          · exact Or.inl (Or.inl h)
          · rcases Nat.lt_or_ge p (s + 2 ^ find_size MAX_ORDER s n) with hc | hc
            · obtain ⟨hd1, hd2⟩ := h
              exact Or.inl (Or.inr ⟨hd1, by omega⟩)
            · obtain ⟨hd1, hd2⟩ := h
              exact Or.inr ⟨by omega, by omega⟩

/-- `insert_page_range` on a fresh range: succeeds, preserves the invariant,
and adds exactly the pages `[s, s+n)` to the free pool. -/
theorem insert_page_range_ok {st : St} {s n : Nat} (hInv : Inv st)
    (hfresh : ∀ p, s ≤ p → p < s + n → ¬ freePage st p) :
    ∃ st', insert_page_range st s n = .ok st' ∧ Inv st' ∧
      (∀ p, freePage st' p ↔ (freePage st p ∨ (s ≤ p ∧ p < s + n))) :=
  insert_page_range_go_ok n st s n hInv (le_refl n) hfresh

/-! ### `remove_page_range` -/

theorem scan_area_sound {sp bsize : Nat} : ∀ {l : List Nat} {b : Nat},
    scan_area sp bsize l = some b → b ∈ l ∧ b ≤ sp ∧ sp ≤ b + bsize - 1 := by
  intro l
  induction l with
  | nil => intro b h; simp [scan_area] at h
  | cons y ys ih =>
    intro b h
    simp only [scan_area] at h
    by_cases h1 : sp < y
    · rw [if_pos h1] at h
      cases h
    · rw [if_neg h1] at h
      by_cases h2 : y ≤ sp ∧ sp ≤ y + bsize - 1
      · rw [if_pos h2] at h
        cases h
        exact ⟨List.mem_cons_self .., h2⟩
      · rw [if_neg h2] at h
        obtain ⟨hm, hrest⟩ := ih h
        exact ⟨List.mem_cons_of_mem _ hm, hrest⟩

theorem scan_area_complete {sp bsize : Nat} : ∀ {l : List Nat},
    List.Sorted (· < ·) l → ∀ {c : Nat}, c ∈ l → c ≤ sp → sp ≤ c + bsize - 1 →
    ∃ b, scan_area sp bsize l = some b := by
  intro l
  induction l with
  | nil => intro _ c hc; simp at hc
  | cons y ys ih =>
    intro hs c hc hc1 hc2
    simp only [scan_area]
    by_cases h1 : sp < y
    · exfalso
      rw [List.sorted_cons] at hs
      rcases List.mem_cons.mp hc with rfl | hc'
      · omega
      · have := hs.1 c hc'
        omega
    · rw [if_neg h1]
      by_cases h2 : y ≤ sp ∧ sp ≤ y + bsize - 1
      · rw [if_pos h2]
        exact ⟨y, rfl⟩
      · rw [if_neg h2]
        rw [List.sorted_cons] at hs
        rcases List.mem_cons.mp hc with rfl | hc'
        · exact absurd ⟨hc1, hc2⟩ h2
        · exact ih hs.2 hc' hc1 hc2

theorem scan_orders_sound {st : St} {sp : Nat} : ∀ {o j c : Nat},
    scan_orders st sp o = some (j, c) →
    j ≤ o ∧ c ∈ getArea st j ∧ c ≤ sp ∧ sp ≤ c + pages_per_block j - 1 := by
  intro o
  induction o with
  | zero =>
    intro j c h
    simp only [scan_orders] at h
    cases hsa : scan_area sp (pages_per_block 0) (getArea st 0) with
    | none => simp [hsa] at h
    | some b =>
      simp only [hsa] at h
      cases h
      obtain ⟨hm, h1, h2⟩ := scan_area_sound hsa
      exact ⟨le_refl 0, hm, h1, h2⟩
  | succ o ih =>
    intro j c h
    simp only [scan_orders] at h
    cases hsa : scan_area sp (pages_per_block (o + 1)) (getArea st (o + 1)) with
    | none =>
      simp only [hsa] at h
      obtain ⟨h1, hrest⟩ := ih h
      exact ⟨by omega, hrest⟩
    | some b =>
      simp only [hsa] at h
      cases h
      obtain ⟨hm, h1, h2⟩ := scan_area_sound hsa
      exact ⟨le_refl _, hm, h1, h2⟩

theorem scan_orders_complete {st : St} {sp : Nat} (hsrt : SortedTable st) :
    ∀ {o : Nat}, o ≤ MAX_ORDER →
    (∃ j, j ≤ o ∧ ∃ c ∈ getArea st j, c ≤ sp ∧ sp < c + 2 ^ j) →
    ∃ jc, scan_orders st sp o = some jc := by
  intro o
  induction o with
  | zero =>
    intro ho h
    obtain ⟨j, hj, c, hc, h1, h2⟩ := h
    have hj0 : j = 0 := by omega
    subst hj0
    obtain ⟨b, hb⟩ := scan_area_complete (hsrt 0 ho) hc h1
      (by
        have hpp : pages_per_block 0 = 2 ^ 0 := rfl
        have := two_pow_pos 0
        show sp ≤ c + pages_per_block 0 - 1
        omega)
    exact ⟨(0, b), by simp only [scan_orders, hb]⟩
  | succ o ih =>
    intro ho h
    obtain ⟨j, hj, c, hc, h1, h2⟩ := h
    cases hsa : scan_area sp (pages_per_block (o + 1)) (getArea st (o + 1)) with
    | some b => exact ⟨(o + 1, b), by simp only [scan_orders, hsa]⟩
    | none =>
      rcases Nat.lt_or_ge j (o + 1) with hlt | hge
      · obtain ⟨jc, hjc⟩ := ih (by omega) ⟨j, by omega, c, hc, h1, h2⟩
        refine ⟨jc, ?_⟩
        simp only [scan_orders, hsa]
        exact hjc
      · exfalso
        have hje : j = o + 1 := by omega
        subst hje
        obtain ⟨b, hb⟩ := scan_area_complete (hsrt (o + 1) ho) hc h1
          (by
            have hpp : pages_per_block (o + 1) = 2 ^ (o + 1) := rfl
            have := two_pow_pos (o + 1)
            show sp ≤ c + pages_per_block (o + 1) - 1
            omega)
        rw [hb] at hsa
        cases hsa

theorem remove_page_range_go_ok : ∀ (fuel : Nat) (st : St) (s n : Nat), Inv st →
    n ≤ fuel → (∀ p, s ≤ p → p < s + n → freePage st p) →
    ∃ st', remove_page_range_go fuel st s n = .ok st' ∧ Inv st' ∧
      (∀ p, freePage st' p ↔ (freePage st p ∧ ¬(s ≤ p ∧ p < s + n))) := by
  intro fuel
  induction fuel with
  | zero =>
    intro st s n hInv hn hcov
    have hz : n = 0 := by omega
    subst hz
    exact ⟨st, by simp [remove_page_range_go], hInv,
      fun p => ⟨fun h => ⟨h, by omega⟩, fun h => h.1⟩⟩
  | succ fuel ih =>
    intro st s n hInv hn hcov
    by_cases hn0 : n = 0
    · subst hn0
      exact ⟨st, by simp [remove_page_range_go], hInv,
        fun p => ⟨fun h => ⟨h, by omega⟩, fun h => h.1⟩⟩
    · have hnpos : 0 < n := by omega
      have hsF : freePage st s := hcov s (le_refl s) (by omega)
      obtain ⟨j0, hj0, c0, hc0, hcp0⟩ := hsF
      obtain ⟨⟨j, c⟩, hscan⟩ := scan_orders_complete hInv.2.2.1 (le_refl MAX_ORDER)
        ⟨j0, hj0, c0, hc0, hcp0.1, hcp0.2⟩
      obtain ⟨hjle, hcmem, hc1, hc2⟩ := scan_orders_sound hscan
      have hpp : pages_per_block j = 2 ^ j := rfl
      have hpos := two_pow_pos j
      obtain ⟨hrem, hinv1, hF1⟩ := remove_tracked (rinv_of_inv hInv hjle hcmem)
      have hblockF : ∀ p, inBlock c j p → freePage st p :=
        fun p hp => ⟨j, hjle, c, hcmem, hp⟩
      have hfreshL : ∀ p, c ≤ p → p < c + (s - c) → ¬ freePage (eraseArea st c j) p := by
        intro p h1 h2 hF
        rw [hF1 p] at hF
        exact hF.2 ⟨h1, by omega⟩
      obtain ⟨st2, hrun2, hinv2, hF2⟩ := insert_page_range_ok hinv1 hfreshL
      by_cases hcase : s + n - 1 ≤ c + pages_per_block j - 1
      · have hfreshR : ∀ p, (s + n - 1) + 1 ≤ p →
            p < (s + n - 1) + 1 + (c + pages_per_block j - (s + n - 1) - 1) →
            ¬ freePage st2 p := by
          intro p h1 h2 hF
          rcases (hF2 p).mp hF with hF' | hB
          · rw [hF1 p] at hF'
            refine hF'.2 ⟨by omega, by omega⟩
          · omega
        obtain ⟨st3, hrun3, hinv3, hF3⟩ := insert_page_range_ok hinv2 hfreshR
        refine ⟨st3, ?_, hinv3, fun p => ?_⟩
        · simp only [remove_page_range_go, if_neg hn0, hscan]
          rw [hrem, ok_bind, if_pos hcase, hrun2, ok_bind]
          exact hrun3
        · rw [hF3 p, hF2 p, hF1 p]
          unfold inBlock
          have hbF := hblockF p
          unfold inBlock at hbF
          constructor
          · rintro ((⟨hF', hnb⟩ | hL) | hR)
            · exact ⟨hF', fun hc => hnb ⟨by omega, by omega⟩⟩
            · exact ⟨hbF ⟨by omega, by omega⟩, by omega⟩
            · exact ⟨hbF ⟨by omega, by omega⟩, by omega⟩
          · rintro ⟨hF', hnr⟩
            by_cases hpb : c ≤ p ∧ p < c + 2 ^ j
            · rcases Nat.lt_or_ge p s with hps | hps
              · exact Or.inl (Or.inr ⟨by omega, by omega⟩)
              · exact Or.inr ⟨by omega, by omega⟩
            · exact Or.inl (Or.inl ⟨hF', fun hc => hpb ⟨hc.1, hc.2⟩⟩)
      · have hcov2 : ∀ p, (c + pages_per_block j - 1) + 1 ≤ p →
            p < (c + pages_per_block j - 1) + 1 + (n - ((c + pages_per_block j - 1) - s + 1)) →
            freePage st2 p := by
          intro p h1 h2
          apply (hF2 p).mpr
          left
          rw [hF1 p]
          refine ⟨hcov p (by omega) (by omega), ?_⟩
          unfold inBlock
          omega
        obtain ⟨st3, hrun3, hinv3, hF3⟩ := ih st2 ((c + pages_per_block j - 1) + 1)
          (n - ((c + pages_per_block j - 1) - s + 1)) hinv2 (by omega) hcov2
        refine ⟨st3, ?_, hinv3, fun p => ?_⟩
        · simp only [remove_page_range_go, if_neg hn0, hscan]
          rw [hrem, ok_bind, if_neg hcase, hrun2, ok_bind]
          exact hrun3
        · rw [hF3 p, hF2 p, hF1 p]
          unfold inBlock
          have hbF := hblockF p
          unfold inBlock at hbF
          constructor
          · rintro ⟨(⟨hF', hnb⟩ | hL), hnr⟩
            · refine ⟨hF', fun hc => ?_⟩
              rcases Nat.le_total p (c + 2 ^ j - 1) with hp | hp
              · exact hnb ⟨by omega, by omega⟩
              · exact hnr ⟨by omega, by omega⟩
            · exact ⟨hbF ⟨by omega, by omega⟩, by omega⟩
          · rintro ⟨hF', hnr⟩
            constructor
            · by_cases hpb : c ≤ p ∧ p < c + 2 ^ j
              · exact Or.inr ⟨by omega, by omega⟩
              · exact Or.inl ⟨hF', fun hc => hpb ⟨hc.1, hc.2⟩⟩
            · intro hc
              exact hnr ⟨by omega, by omega⟩

/-- `remove_page_range` on a fully covered range: succeeds, preserves the
invariant, and removes exactly the pages `[s, s+n)` from the free pool. -/
theorem remove_page_range_ok {st : St} {s n : Nat} (hInv : Inv st)
    (hcov : ∀ p, s ≤ p → p < s + n → freePage st p) :
    ∃ st', remove_page_range st s n = .ok st' ∧ Inv st' ∧
      (∀ p, freePage st' p ↔ (freePage st p ∧ ¬(s ≤ p ∧ p < s + n))) :=
  remove_page_range_go_ok n st s n hInv (le_refl n) hcov

/-! ### Canonical decomposition: the invariant table is determined by its
set of free pages -/

theorem parent_block_le {b i : Nat} (hal : 2 ^ i ∣ b) : parent_block b i ≤ b := by
  rcases buddy_core hal with ⟨-, -, hp⟩ | ⟨-, hle, -, -, hp⟩ <;> omega

theorem sorted_eq_of_mem_iff : ∀ {l1 l2 : List Nat}, List.Sorted (· < ·) l1 →
    List.Sorted (· < ·) l2 → (∀ x, x ∈ l1 ↔ x ∈ l2) → l1 = l2 := by
  intro l1
  induction l1 with
  | nil =>
    intro l2 _ _ h
    cases l2 with
    | nil => rfl
    | cons y ys => exact absurd ((h y).mpr (List.mem_cons_self ..)) (by simp)
  | cons x xs ih =>
    intro l2 h1 h2 h
    cases l2 with
    | nil => exact absurd ((h x).mp (List.mem_cons_self ..)) (by simp)
    | cons y ys =>
      rw [List.sorted_cons] at h1 h2
      have hxy : x = y := by
        rcases List.mem_cons.mp ((h x).mp (List.mem_cons_self ..)) with he | hx2
        · exact he
        · rcases List.mem_cons.mp ((h y).mpr (List.mem_cons_self ..)) with he | hy1
          · exact he.symm
          · have ha := h1.1 y hy1
            have hb := h2.1 x hx2
            omega
      subst hxy
      have htail : ∀ z, z ∈ xs ↔ z ∈ ys := by
        intro z
        constructor
        · intro hz
          rcases List.mem_cons.mp ((h z).mp (List.mem_cons_of_mem _ hz)) with he | hz2
          · have := h1.1 z hz
            omega
          · exact hz2
        · intro hz
          rcases List.mem_cons.mp ((h z).mpr (List.mem_cons_of_mem _ hz)) with he | hz2
          · have := h2.1 z hz
            omega
          · exact hz2
      rw [ih h1.2 h2.2 htail]

/-- If every page of an aligned order-`m` region is free, one single free
block covers the whole region. -/
theorem full_cover {st : St} (hInv : Inv st) : ∀ (m R : Nat), m ≤ MAX_ORDER →
    2 ^ m ∣ R → (∀ p, R ≤ p → p < R + 2 ^ m → freePage st p) →
    ∃ j c, j ≤ MAX_ORDER ∧ c ∈ getArea st j ∧ c ≤ R ∧ R + 2 ^ m ≤ c + 2 ^ j := by
  intro m
  induction m with
  | zero =>
    intro R hm hal hfree
    obtain ⟨j, hj, c, hc, h1, h2⟩ := hfree R (le_refl R) (by have := two_pow_pos 0; omega)
    refine ⟨j, c, hj, hc, h1, ?_⟩
    have h20 : (2 : Nat) ^ 0 = 1 := rfl
    omega
  | succ m ih =>
    intro R hm hal hfree
    have hm' : m ≤ MAX_ORDER := by omega
    have halm : 2 ^ m ∣ R := dvd_trans (pow_dvd_pow 2 (by omega)) hal
    have hs := two_pow_succ_eq m
    have hposm := two_pow_pos m
    have hRhi : 2 ^ m ∣ R + 2 ^ m := Nat.dvd_add halm dvd_rfl
    obtain ⟨j1, c1, hj1, hc1, hlo1, hlo2⟩ := ih R hm' halm
      (fun p hp1 hp2 => hfree p hp1 (by omega))
    obtain ⟨j2, c2, hj2, hc2, hhi1, hhi2⟩ := ih (R + 2 ^ m) hm' hRhi
      (fun p hp1 hp2 => hfree p (by omega) (by omega))
    have hA := hInv.2.1
    rcases Nat.lt_or_ge j1 (m + 1) with hj1lt | hj1ge
    · rcases Nat.lt_or_ge j2 (m + 1) with hj2lt | hj2ge
      · exfalso
        have h2le1 : (2 : Nat) ^ j1 ≤ 2 ^ m := Nat.pow_le_pow_right (by omega) (by omega)
        have h2le2 : (2 : Nat) ^ j2 ≤ 2 ^ m := Nat.pow_le_pow_right (by omega) (by omega)
        have he1 : c1 = R ∧ (2 : Nat) ^ j1 = 2 ^ m := ⟨by omega, by omega⟩
        have he2 : c2 = R + 2 ^ m ∧ (2 : Nat) ^ j2 = 2 ^ m := ⟨by omega, by omega⟩
        have hj1m : j1 = m := Nat.pow_right_injective (by omega) he1.2
        have hj2m : j2 = m := Nat.pow_right_injective (by omega) he2.2
        have hbv : buddyVal R m = R + 2 ^ m := by
          rcases buddy_core halm with ⟨-, hb, -⟩ | ⟨hnd, -, -, -, -⟩
          · exact hb
          · exact absurd hal hnd
        have hR1 : R ∈ getArea st m := by
          rw [← he1.1, ← hj1m]
          exact hc1
        have hR2 : buddyVal R m ∈ getArea st m := by
          rw [hbv, ← he2.1, ← hj2m]
          exact hc2
        exact hInv.2.2.2.2 m (by omega) R hR1 hR2
      · have hc2al : 2 ^ j2 ∣ c2 := hA j2 hj2 c2 hc2
        have hnest := aligned_nest (show m + 1 ≤ j2 by omega) hal hc2al
          (show R ≤ R + 2 ^ m by omega) (show R + 2 ^ m < R + 2 ^ (m + 1) by omega)
          hhi1 (show R + 2 ^ m < c2 + 2 ^ j2 by omega)
        exact ⟨j2, c2, hj2, hc2, by omega, by omega⟩
    · have hc1al : 2 ^ j1 ∣ c1 := hA j1 hj1 c1 hc1
      have hnest := aligned_nest (show m + 1 ≤ j1 by omega) hal hc1al
        (le_refl R) (show R < R + 2 ^ (m + 1) by omega)
        hlo1 (show R < c1 + 2 ^ j1 by omega)
      exact ⟨j1, c1, hj1, hc1, by omega, by omega⟩

/-- Membership in the invariant table is determined by the free-page set:
a block is listed at order `i` iff it is aligned, all its pages are free,
and (below the top order) its parent region is not fully free. -/
theorem mem_area_iff {st : St} (hInv : Inv st) {i b : Nat} (hi : i ≤ MAX_ORDER) :
    b ∈ getArea st i ↔
      (2 ^ i ∣ b ∧ (∀ p, b ≤ p → p < b + 2 ^ i → freePage st p) ∧
        (i = MAX_ORDER ∨
          ¬ ∀ p, parent_block b i ≤ p → p < parent_block b i + 2 ^ (i + 1) →
            freePage st p)) := by
  have hposi := two_pow_pos i
  constructor
  · intro hmem
    have hal : 2 ^ i ∣ b := hInv.2.1 i hi b hmem
    refine ⟨hal, fun p hp1 hp2 => ⟨i, hi, b, hmem, hp1, hp2⟩, ?_⟩
    by_cases hiM : i = MAX_ORDER
    · exact Or.inl hiM
    · right
      intro hPfree
      have hiM' : i + 1 ≤ MAX_ORDER := by omega
      have hpal : 2 ^ (i + 1) ∣ parent_block b i := parent_block_aligned hal
      obtain ⟨j, c, hj, hc, hsub1, hsub2⟩ :=
        full_cover hInv (i + 1) (parent_block b i) hiM' hpal hPfree
      have hpb : inBlock (parent_block b i) (i + 1) b :=
        (parent_block_covers hal b).mpr (Or.inl ⟨le_refl b, by omega⟩)
      obtain ⟨hq1, hq2⟩ := hpb
      by_cases hsame : i = j ∧ b = c
      · obtain ⟨hij, hbceq⟩ := hsame
        rw [← hij] at hsub2
        rw [← hbceq] at hsub1 hsub2
        have hple := parent_block_le hal
        have hs := two_pow_succ_eq i
        omega
      · have hd := hInv.2.2.2.1 i hi j hj b hmem c hc hsame
        omega
  · rintro ⟨hal, hfree, hthird⟩
    obtain ⟨j, c, hj, hc, h1, h2⟩ := full_cover hInv i b hi hal hfree
    have hc_al : 2 ^ j ∣ c := hInv.2.1 j hj c hc
    have hij : i ≤ j := by
      by_contra hcon
      push_neg at hcon
      have := Nat.pow_lt_pow_right (show 1 < 2 by omega) hcon
      omega
    rcases Nat.eq_or_lt_of_le hij with heq | hlt
    · have hcb : c = b := by
        rw [← heq] at h2
        omega
      rw [← heq] at hc
      exact hcb ▸ hc
    · exfalso
      have hiM : i ≠ MAX_ORDER := by omega
      rcases hthird with hthird | hthird
      · exact hiM hthird
      apply hthird
      have hpal : 2 ^ (i + 1) ∣ parent_block b i := parent_block_aligned hal
      have hpb : inBlock (parent_block b i) (i + 1) b :=
        (parent_block_covers hal b).mpr (Or.inl ⟨le_refl b, by omega⟩)
      have hnest := aligned_nest (show i + 1 ≤ j by omega) hpal hc_al
        hpb.1 hpb.2 (show c ≤ b by omega) (show b < c + 2 ^ j by omega)
      intro p hp1 hp2
      exact ⟨j, hj, c, hc, by omega, by omega⟩

/-- Two invariant tables with the same free pages are equal. -/
theorem table_unique {st1 st2 : St} (h1 : Inv st1) (h2 : Inv st2)
    (hF : ∀ p, freePage st1 p ↔ freePage st2 p) : st1 = st2 := by
  have hmem : ∀ i, i ≤ MAX_ORDER → ∀ b, b ∈ getArea st1 i ↔ b ∈ getArea st2 i := by
    intro i hi b
    rw [mem_area_iff h1 hi, mem_area_iff h2 hi]
    constructor
    · rintro ⟨ha, hf, ht⟩
      refine ⟨ha, fun p hp1 hp2 => (hF p).mp (hf p hp1 hp2), ?_⟩
      rcases ht with ht | ht
      · exact Or.inl ht
      · right
        intro hc
        exact ht (fun p hp1 hp2 => (hF p).mpr (hc p hp1 hp2))
    · rintro ⟨ha, hf, ht⟩
      refine ⟨ha, fun p hp1 hp2 => (hF p).mpr (hf p hp1 hp2), ?_⟩
      rcases ht with ht | ht
      · exact Or.inl ht
      · right
        intro hc
        exact ht (fun p hp1 hp2 => (hF p).mp (hc p hp1 hp2))
  have harea : ∀ i, getArea st1 i = getArea st2 i := by
    intro i
    rcases Nat.lt_or_ge MAX_ORDER i with hi | hi
    · rw [getArea_default (show st1.length ≤ i by rw [h1.1]; omega),
        getArea_default (show st2.length ≤ i by rw [h2.1]; omega)]
    · exact sorted_eq_of_mem_iff (h1.2.2.1 i hi) (h2.2.2.1 i hi) (hmem i hi)
  apply List.ext_getElem (by rw [h1.1, h2.1])
  intro n hn1 hn2
  have hgd := harea n
  unfold getArea at hgd
  rw [List.getD_eq_getElem?_getD, List.getD_eq_getElem?_getD,
    List.getElem?_eq_getElem hn1, List.getElem?_eq_getElem hn2] at hgd
  simpa using hgd

/-! ### `allocate_pages`: the split loop and the upward scan -/

theorem split_step {st : St} {b i : Nat} (h : RInv st b (i + 1)) :
    ∃ st', split_block st b (i + 1) = .ok (st', b) ∧ RInv st' b i ∧
      (∀ p, freePage st' p ↔ freePage st p) := by
  have hlen := h.len
  have hi1 : i + 1 ≤ MAX_ORDER := h.ord
  have hi1' : i + 1 < st.length := by omega
  have hi' : i < st.length := by omega
  have hal1 : 2 ^ (i + 1) ∣ b := h.al (i + 1) hi1 b h.mem
  have hal : 2 ^ i ∣ b := dvd_trans (pow_dvd_pow 2 (by omega)) hal1
  have hposi := two_pow_pos i
  have hs := two_pow_succ_eq i
  have hnd1 : (getArea st (i + 1)).Nodup := (h.srt (i + 1) hi1).nodup
  have hbv : buddyVal b i = b + 2 ^ i := by
    rcases buddy_core hal with ⟨-, hb, -⟩ | ⟨hnd, -, -, -, -⟩
    · exact hb
    · exact absurd hal1 hnd
  have hbig : inBlock b (i + 1) b := ⟨le_refl b, by omega⟩
  have hnotin_lo : b ∉ getArea st i := by
    intro hmem
    have hd := h.dis i (by omega) (i + 1) hi1 b hmem b h.mem (fun hc => by omega)
    omega
  have hsib_notin : b + 2 ^ i ∉ getArea st i := by
    intro hmem
    have hd := h.dis i (by omega) (i + 1) hi1 (b + 2 ^ i) hmem b h.mem
      (fun hc => by omega)
    omega
  have hsib_not_in_ins : b + 2 ^ i ∉ insert_block_list b (getArea st i) := by
    intro hmem
    rcases mem_insert_block_list.mp hmem with he | hmem
    · omega
    · exact hsib_notin hmem
  have hred0 : split_block st b (i + 1) =
      .ok (insert_block (insert_block (eraseArea st b (i + 1)) b i)
            (b + pages_per_block i) i, b) := by
    have hz : ¬ (i + 1 = 0) := by omega
    simp only [split_block, alignment_iff.mpr hal1, not_true_eq_false, if_false,
      hz, ite_false, remove_block_ok h.mem, ok_bind, Nat.add_sub_cancel]
  have hred : split_block st b (i + 1) =
      .ok (insert_block (insert_block (eraseArea st b (i + 1)) b i)
            (b + 2 ^ i) i, b) := hred0
  have hlenE : (eraseArea st b (i + 1)).length = MAX_ORDER + 1 := by
    rw [length_eraseArea]
    exact hlen
  have hlenI : (insert_block (eraseArea st b (i + 1)) b i).length = MAX_ORDER + 1 := by
    rw [length_insert_block]
    exact hlenE
  have harea : ∀ k, getArea (insert_block (insert_block (eraseArea st b (i + 1)) b i)
        (b + 2 ^ i) i) k =
      if i = k then insert_block_list (b + 2 ^ i) (insert_block_list b (getArea st i))
      else if i + 1 = k then (getArea st (i + 1)).erase b
      else getArea st k := by
    intro k
    by_cases h1 : i = k
    · subst h1
      rw [if_pos rfl,
        getArea_insert_block i (show i < (insert_block (eraseArea st b (i + 1)) b i).length
          by rw [length_insert_block]; omega), if_pos rfl,
        getArea_insert_block i (show i < (eraseArea st b (i + 1)).length by omega), if_pos rfl,
        getArea_eraseArea b (i + 1) hi1', if_neg (show ¬ i + 1 = i by omega)]
    · rw [if_neg h1,
        getArea_insert_block i (show i < (insert_block (eraseArea st b (i + 1)) b i).length
          by rw [length_insert_block]; omega), if_neg h1,
        getArea_insert_block i (show i < (eraseArea st b (i + 1)).length by omega), if_neg h1,
        getArea_eraseArea b (i + 1) hi1']
  have hmemc : ∀ k x, x ∈ getArea (insert_block (insert_block (eraseArea st b (i + 1)) b i)
        (b + 2 ^ i) i) k →
      (x ∈ getArea st k ∧ ¬(k = i + 1 ∧ x = b)) ∨ (k = i ∧ (x = b ∨ x = b + 2 ^ i)) := by
    intro k x hx
    rw [harea k] at hx
    by_cases h1 : i = k
    · subst h1
      rw [if_pos rfl] at hx
      rcases mem_insert_block_list.mp hx with rfl | hx
      · exact Or.inr ⟨rfl, Or.inr rfl⟩
      rcases mem_insert_block_list.mp hx with rfl | hx
      · exact Or.inr ⟨rfl, Or.inl rfl⟩
      · exact Or.inl ⟨hx, fun hc => by omega⟩
    · rw [if_neg h1] at hx
      by_cases h2 : i + 1 = k
      · subst h2
        rw [if_pos rfl] at hx
        left
        refine ⟨List.mem_of_mem_erase hx, ?_⟩
        rintro ⟨-, rfl⟩
        exact (hnd1.mem_erase_iff.mp hx).1 rfl
      · rw [if_neg h2] at hx
        exact Or.inl ⟨hx, fun hc => h2 hc.1.symm⟩
  have hhalf : ∀ x, (x = b ∨ x = b + 2 ^ i) → ∀ p, inBlock x i p → inBlock b (i + 1) p := by
    rintro x (rfl | rfl) p hp <;> obtain ⟨hp1, hp2⟩ := hp <;> exact ⟨by omega, by omega⟩
  have hdis_half : ∀ x, (x = b ∨ x = b + 2 ^ i) → ∀ k y, k ≤ MAX_ORDER →
      y ∈ getArea st k → ¬(k = i + 1 ∧ y = b) →
      x + 2 ^ i ≤ y ∨ y + 2 ^ k ≤ x := by
    intro x hx k y hk hy hyb
    apply disjoint_of_no_common
    intro p hpx hpy
    have hd := h.dis (i + 1) hi1 k hk b h.mem y hy
      (fun hc => hyb ⟨hc.1.symm, hc.2.symm⟩)
    have hpbig := hhalf x hx p hpx
    obtain ⟨h1, h2⟩ := hpbig
    obtain ⟨h3, h4⟩ := hpy
    omega
  refine ⟨_, hred, ⟨?_, by omega, ?_, ?_, ?_, ?_, ?_⟩, ?_⟩
  · rw [length_insert_block]
    exact hlenI
  · rw [harea i, if_pos rfl]
    exact mem_insert_block_list.mpr (Or.inr (mem_insert_block_list.mpr (Or.inl rfl)))
  · intro k hk x hx
    rcases hmemc k x hx with ⟨hx', -⟩ | ⟨rfl, hx'⟩
    · exact h.al k hk x hx'
    · rcases hx' with rfl | rfl
      · exact hal
      · exact Nat.dvd_add hal dvd_rfl
  · intro k hk
    rw [harea k]
    by_cases h1 : i = k
    · rw [if_pos h1]
      exact sorted_insert_block_list
        (sorted_insert_block_list (h1 ▸ h.srt i (by omega)) hnotin_lo) hsib_not_in_ins
    · rw [if_neg h1]
      by_cases h2 : i + 1 = k
      · rw [if_pos h2]
        exact sorted_erase (h2 ▸ h.srt (i + 1) hi1) b
      · rw [if_neg h2]
        exact h.srt k hk
  · intro k hk l hl x hx y hy hne
    rcases hmemc k x hx with ⟨hx', hxb⟩ | ⟨rfl, hx'⟩
    · rcases hmemc l y hy with ⟨hy', hyb⟩ | ⟨rfl, hy'⟩
      · exact h.dis k hk l hl x hx' y hy' hne
      · rcases hdis_half y hy' k x hk hx' hxb with hd | hd
        · exact Or.inr hd
        · exact Or.inl hd
    · rcases hmemc l y hy with ⟨hy', hyb⟩ | ⟨rfl, hy'⟩
      · exact hdis_half x hx' l y hl hy' hyb
      · rcases hx' with rfl | rfl <;> rcases hy' with rfl | rfl
        · exact absurd ⟨rfl, rfl⟩ hne
        · exact Or.inl (by omega)
        · exact Or.inr (by omega)
        · exact absurd ⟨rfl, rfl⟩ hne
  · intro k hk x hx hbx
    rcases hmemc k x hx with ⟨hx', hxb⟩ | ⟨rfl, hx'⟩
    · rcases hmemc k (buddyVal x k) hbx with ⟨hbx', hbxb⟩ | ⟨rfl, hbx'⟩
      · obtain ⟨hio, hcase⟩ := h.egx k hk x hx' hbx'
        rcases hcase with rfl | rfl
        · exact absurd ⟨hio, rfl⟩ hxb
        · exact absurd ⟨hio, by rw [hio, buddyVal_invol hal1]⟩ hbxb
      · have hxal : 2 ^ k ∣ x := h.al k (by omega) x hx'
        refine ⟨rfl, ?_⟩
        rcases hbx' with hbe | hbe
        · right
          rw [← hbe, buddyVal_invol hxal]
        · left
          have hxx : buddyVal (buddyVal x k) k = x := buddyVal_invol hxal
          rw [hbe, ← hbv, buddyVal_invol hal] at hxx
          exact hxx.symm
    · refine ⟨rfl, ?_⟩
      rw [hbv]
      exact hx'
  · intro p
    have h1 : freePage (insert_block (insert_block (eraseArea st b (i + 1)) b i)
          (b + 2 ^ i) i) p ↔
        freePage (insert_block (eraseArea st b (i + 1)) b i) p ∨ inBlock (b + 2 ^ i) i p :=
      freePage_insert_block hlenI (by omega) p
    have h2 : freePage (insert_block (eraseArea st b (i + 1)) b i) p ↔
        freePage (eraseArea st b (i + 1)) p ∨ inBlock b i p :=
      freePage_insert_block hlenE (by omega) p
    have h3 : freePage (eraseArea st b (i + 1)) p ↔
        freePage st p ∧ ¬ inBlock b (i + 1) p :=
      erase_freePage hlen hi1 h.mem h.srt h.dis p
    rw [h1, h2, h3]
    unfold inBlock
    constructor
    · rintro ((⟨hF, -⟩ | hlo) | hhi)
      · exact hF
      · exact ⟨i + 1, hi1, b, h.mem, by omega, by omega⟩
      · exact ⟨i + 1, hi1, b, h.mem, by omega, by omega⟩
    · intro hF
      by_cases hin : b ≤ p ∧ p < b + 2 ^ (i + 1)
      · rcases Nat.lt_or_ge p (b + 2 ^ i) with hc | hc
        · exact Or.inl (Or.inr ⟨by omega, by omega⟩)
        · exact Or.inr ⟨by omega, by omega⟩
      · exact Or.inl (Or.inl ⟨hF, fun hc => hin ⟨hc.1, hc.2⟩⟩)

theorem split_loop_ok : ∀ (i : Nat) (st : St) (b o : Nat), RInv st b i → o ≤ i →
    ∃ st', split_loop st b i o = .ok (st', b) ∧ RInv st' b o ∧
      (∀ p, freePage st' p ↔ freePage st p) := by
  intro i
  induction i with
  | zero =>
    intro st b o h ho
    have hoz : o = 0 := by omega
    subst hoz
    exact ⟨st, rfl, h, fun p => Iff.rfl⟩
  | succ i ih =>
    intro st b o h ho
    by_cases hoi : o < i + 1
    · obtain ⟨st1, hred, hrinv, hF⟩ := split_step h
      obtain ⟨st2, hrun, hrinv2, hF2⟩ := ih st1 b o hrinv (by omega)
      refine ⟨st2, ?_, hrinv2, fun p => (hF2 p).trans (hF p)⟩
      simp only [split_loop, if_pos hoi]
      rw [hred, ok_bind]
      exact hrun
    · have hoe : o = i + 1 := by omega
      subst hoe
      exact ⟨st, by simp only [split_loop, if_neg hoi], h, fun p => Iff.rfl⟩

theorem find_first_free_none : ∀ (fuel : Nat) (st : St) (k : Nat),
    k + fuel = MAX_ORDER + 1 →
    (find_first_free fuel st k = none ↔
      ∀ j, k ≤ j → j ≤ MAX_ORDER → getArea st j = []) := by
  intro fuel
  induction fuel with
  | zero =>
    intro st k hk
    exact ⟨fun _ j hj1 hj2 => absurd hj1 (by omega), fun _ => rfl⟩
  | succ fuel ih =>
    intro st k hk
    simp only [find_first_free]
    by_cases hne : getArea st k ≠ []
    · rw [if_pos hne]
      constructor
      · intro h
        cases h
      · intro hall
        exact absurd (hall k (le_refl k) (by omega)) hne
    · rw [if_neg hne]
      push_neg at hne
      by_cases hkM : k = MAX_ORDER
      · rw [if_pos hkM]
        constructor
        · intro _ j hj1 hj2
          have hjk : j = k := by omega
          rw [hjk]
          exact hne
        · intro _
          rfl
      · rw [if_neg hkM, ih st (k + 1) (by omega)]
        constructor
        · intro h j hj1 hj2
          rcases Nat.eq_or_lt_of_le hj1 with he | hlt
          · rw [← he]
            exact hne
          · exact h j (by omega) hj2
        · intro h j hj1 hj2
          exact h j (by omega) hj2

theorem find_first_free_some : ∀ (fuel : Nat) (st : St) (k f : Nat),
    k + fuel = MAX_ORDER + 1 → find_first_free fuel st k = some f →
    k ≤ f ∧ f ≤ MAX_ORDER ∧ getArea st f ≠ [] ∧
      ∀ j, k ≤ j → j < f → getArea st j = [] := by
  intro fuel
  induction fuel with
  | zero =>
    intro st k f hk h
    cases h
  | succ fuel ih =>
    intro st k f hk h
    simp only [find_first_free] at h
    by_cases hne : getArea st k ≠ []
    · rw [if_pos hne] at h
      cases h
      exact ⟨le_refl k, by omega, hne, fun j hj1 hj2 => by omega⟩
    · rw [if_neg hne] at h
      push_neg at hne
      by_cases hkM : k = MAX_ORDER
      · rw [if_pos hkM] at h
        cases h
      · rw [if_neg hkM] at h
        obtain ⟨h1, h2, h3, h4⟩ := ih st (k + 1) f (by omega) h
        refine ⟨by omega, h2, h3, fun j hj1 hj2 => ?_⟩
        rcases Nat.eq_or_lt_of_le hj1 with he | hlt
        · rw [← he]
          exact hne
        · exact h4 j (by omega) hj2

/-- A successful allocation: head block of the first non-empty order,
split down to the requested order, removed from that order's list. -/
theorem allocate_pages_some {st : St} {k f : Nat} (hInv : Inv st) (hk : k ≤ MAX_ORDER)
    (hf : find_first_free (MAX_ORDER + 1 - k) st k = some f) :
    ∃ st' hd tl, getArea st f = hd :: tl ∧
      allocate_pages st k = .ok (st', some hd) ∧ Inv st' ∧
      (∀ p, freePage st' p ↔ (freePage st p ∧ ¬ inBlock hd k p)) ∧
      hd ∉ getArea st' k := by
  obtain ⟨hkf, hfM, hfne, -⟩ := find_first_free_some (MAX_ORDER + 1 - k) st k f
    (by omega) hf
  cases hA : getArea st f with
  | nil => exact absurd hA hfne
  | cons hd tl =>
    have hmem : hd ∈ getArea st f := by
      rw [hA]
      exact List.mem_cons_self ..
    obtain ⟨st2, hsplit, hrinv2, hF2⟩ :=
      split_loop_ok f st hd k (rinv_of_inv hInv hfM hmem) hkf
    obtain ⟨hrem, hinv3, hF3⟩ := remove_tracked hrinv2
    have hnd2 : (getArea st2 k).Nodup := (hrinv2.srt k hk).nodup
    refine ⟨eraseArea st2 hd k, hd, tl, rfl, ?_, hinv3,
      fun p => (hF3 p).trans (by rw [hF2 p]), ?_⟩
    · simp only [allocate_pages, if_neg (show ¬ MAX_ORDER < k by omega), hf, hA,
        hsplit, ok_bind, hrem]
    · rw [getArea_eraseArea hd k (show k < st2.length by rw [hrinv2.len]; omega),
        if_pos rfl, hnd2.mem_erase_iff]
      intro hc
      exact hc.1 rfl

/-- A failed scan returns `NULL` with the table untouched. -/
theorem allocate_pages_none {st : St} {k : Nat} (hk : k ≤ MAX_ORDER)
    (hf : find_first_free (MAX_ORDER + 1 - k) st k = none) :
    allocate_pages st k = .ok (st, none) := by
  simp only [allocate_pages, if_neg (show ¬ MAX_ORDER < k by omega), hf]

/-- Whenever `allocate_pages` returns `NULL`, the table is unchanged —
with no invariant assumption at all. -/
theorem allocate_pages_fail_id {st st2 : St} {k : Nat} (hk : k ≤ MAX_ORDER)
    (h : allocate_pages st k = .ok (st2, none)) : st2 = st := by
  unfold allocate_pages at h
  rw [if_neg (show ¬ MAX_ORDER < k by omega)] at h
  cases hf : find_first_free (MAX_ORDER + 1 - k) st k with
  | none =>
    simp only [hf] at h
    rw [Except.ok.injEq, Prod.mk.injEq] at h
    exact h.1.symm
  | some f =>
    simp only [hf] at h
    cases hA : getArea st f with
    | nil =>
      simp only [hA] at h
      cases h
    | cons hd tl =>
      simp only [hA] at h
      cases hsp : split_loop st hd f k with
      | error e =>
        rw [hsp, error_bind] at h
        cases h
      | ok r =>
        rw [hsp, ok_bind] at h
        cases hrm : remove_block r.1 r.2 k with
        | error e =>
          rw [hrm, error_bind] at h
          cases h
        | ok st3 =>
          rw [hrm, ok_bind] at h
          simp at h

/-- `allocate_pages` preserves the structural invariant. -/
theorem allocate_pages_inv {st st' : St} {k : Nat} {r : Option Nat} (hInv : Inv st)
    (hk : k ≤ MAX_ORDER) (h : allocate_pages st k = .ok (st', r)) : Inv st' := by
  cases hf : find_first_free (MAX_ORDER + 1 - k) st k with
  | none =>
    rw [allocate_pages_none hk hf] at h
    rw [Except.ok.injEq, Prod.mk.injEq] at h
    rw [← h.1]
    exact hInv
  | some f =>
    obtain ⟨st2, hd, tl, hA, hrun, hinv2, -, -⟩ := allocate_pages_some hInv hk hf
    rw [hrun] at h
    rw [Except.ok.injEq, Prod.mk.injEq] at h
    rw [← h.1]
    exact hinv2

theorem find_first_free_eq : ∀ (fuel : Nat) (st : St) (k f : Nat),
    k + fuel = MAX_ORDER + 1 → k ≤ f → f ≤ MAX_ORDER → getArea st f ≠ [] →
    (∀ j, k ≤ j → j < f → getArea st j = []) →
    find_first_free fuel st k = some f := by
  intro fuel
  induction fuel with
  | zero =>
    intro st k f hk h1 h2 _ _
    omega
  | succ fuel ih =>
    intro st k f hk h1 h2 hne hbelow
    simp only [find_first_free]
    by_cases hkf : k = f
    · rw [if_pos (by rw [hkf]; exact hne), hkf]
    · have hlt : k < f := by omega
      have hkemp : getArea st k = [] := hbelow k (le_refl k) hlt
      rw [if_neg (by simp [hkemp]), if_neg (show ¬ k = MAX_ORDER by omega)]
      exact ih st (k + 1) f (by omega) (by omega) h2 hne
        (fun j hj1 hj2 => hbelow j (by omega) hj2)

/-! ### Inversion of `buddy_of`, and invariance of reachable states -/

theorem buddy_of_some {b o bud : Nat} (h : buddy_of b o = some bud) :
    o < MAX_ORDER ∧ 2 ^ o ∣ b ∧ bud = buddyVal b o := by
  unfold buddy_of at h
  by_cases h1 : MAX_ORDER ≤ o
  · rw [if_pos h1] at h
    cases h
  · rw [if_neg h1] at h
    by_cases h2 : is_correct_alignment_for_order b o = true
    · rw [if_neg (by simp [h2])] at h
      refine ⟨by omega, alignment_iff.mp h2, ?_⟩
      by_cases h3 : is_correct_alignment_for_order b (o + 1) = true
      · rw [if_pos h3] at h
        cases h
        simp [buddyVal, Nat.mod_eq_zero_of_dvd (alignment_iff.mp h3), pages_per_block]
      · rw [if_neg h3] at h
        cases h
        have hz : ¬ b % 2 ^ (o + 1) = 0 := fun hz =>
          h3 (alignment_iff.mpr (Nat.dvd_iff_mod_eq_zero.mpr hz))
        simp [buddyVal, hz, pages_per_block]
    · rw [if_pos (by simpa using h2)] at h
      cases h

/-- Every state reachable through the public operations (with their
preconditions) satisfies the full structural invariant. -/
theorem reachable_inv : ∀ {st : St}, Reachable st → Inv st := by
  intro st h
  induction h with
  | init => decide
  | alloc st1 st2 k r hr hk heq ih => exact allocate_pages_inv ih hk heq
  | free st1 st2 b o hr ho hal hfresh heq ih =>
    obtain ⟨st3, hrun, hinv, -⟩ := free_pages_ok ih ho hal
      (fun p hp => hfresh p hp.1 hp.2)
    rw [hrun] at heq
    injection heq with he
    rw [← he]
    exact hinv
  | insertRange st1 st2 s n hr hfresh heq ih =>
    obtain ⟨st3, hrun, hinv, -⟩ := insert_page_range_ok ih hfresh
    rw [hrun] at heq
    injection heq with he
    rw [← he]
    exact hinv
  | removeRange st1 st2 s n hr hcov heq ih =>
    obtain ⟨st3, hrun, hinv, -⟩ := remove_page_range_ok ih hcov
    rw [hrun] at heq
    injection heq with he
    rw [← he]
    exact hinv

/-! ### The specification claims -/

/-- C1: for every order `0 ≤ k ≤ MAX_ORDER`, `allocate(k)` returns a
failure result (`NULL`) iff every free list of orders `k` through
`MAX_ORDER` inclusive is empty; otherwise it takes the head block of the
lowest non-empty order at or above `k`, splits it repeatedly down to order
`k`, removes the resulting lowest-address block from order `k`'s list and
returns it.  In particular, from the table whose only free block is a
single order-`MAX_ORDER` block, a first `allocate(MAX_ORDER)` succeeds
and an immediately following `allocate(MAX_ORDER)` fails. -/
theorem claim_C1 :
    (∀ st k, Inv st → k ≤ MAX_ORDER →
      ((allocate_pages st k = .ok (st, none)) ↔
        ∀ j, j ≤ MAX_ORDER → k ≤ j → getArea st j = [])) ∧
    (∀ st k f hd tl, Inv st → k ≤ MAX_ORDER → k ≤ f → f ≤ MAX_ORDER →
      getArea st f = hd :: tl → (∀ j, k ≤ j → j < f → getArea st j = []) →
      ∃ st', allocate_pages st k = .ok (st', some hd) ∧ hd ∉ getArea st' k) ∧
    allocate_pages stMax MAX_ORDER = .ok (init_free_areas, some 0) ∧
    allocate_pages init_free_areas MAX_ORDER = .ok (init_free_areas, none) := by
  refine ⟨?_, ?_, rfl, rfl⟩
  · intro st k hInv hk
    constructor
    · intro h
      cases hf : find_first_free (MAX_ORDER + 1 - k) st k with
      | none =>
        intro j hj1 hj2
        exact (find_first_free_none (MAX_ORDER + 1 - k) st k (by omega)).mp hf j hj2 hj1
      | some f =>
        obtain ⟨st2, hd, tl, hA, hrun, -, -, -⟩ := allocate_pages_some hInv hk hf
        rw [hrun] at h
        simp at h
    · intro hall
      exact allocate_pages_none hk
        ((find_first_free_none (MAX_ORDER + 1 - k) st k (by omega)).mpr
          (fun j hj1 hj2 => hall j hj2 hj1))
  · intro st k f hd tl hInv hk hkf hfM hA hbelow
    have hfind : find_first_free (MAX_ORDER + 1 - k) st k = some f :=
      find_first_free_eq (MAX_ORDER + 1 - k) st k f (by omega) hkf hfM
        (by rw [hA]; simp) hbelow
    obtain ⟨st', hd', tl', hA', hrun, -, -, hnot⟩ := allocate_pages_some hInv hk hfind
    have hhd : hd' = hd := by
      rw [hA] at hA'
      injection hA' with hh ht
      exact hh.symm
    rw [hhd] at hrun hnot
    exact ⟨st', hrun, hnot⟩

/-- Witness for C1: at Scenario A's table, orders 4..MAX_ORDER are all
empty, so `allocate(4)` fails and leaves the table unchanged. -/
theorem claim_C1_witness : allocate_pages stA 4 = .ok (stA, none) :=
  (claim_C1.1 stA 4 (by decide) (by decide)).mpr (by decide)

/-- C2: from Scenario B's table (exactly an order-1 block at frame 2 and
an order-2 block at frame 4), `free(page 0, order 1)` leaves exactly one
free block, the order-3 block at frame 0 — the freed block merges with
its buddy at 2 into an order-2 block at 0, which merges with its buddy at
4 into the order-3 block. -/
theorem claim_C2 :
    getArea stB 1 = [2] ∧ getArea stB 2 = [4] ∧
    (∀ i, i ≤ MAX_ORDER → i ≠ 1 → i ≠ 2 → getArea stB i = []) ∧
    free_pages stB 0 1 = .ok stA ∧
    getArea stA 3 = [0] ∧
    (∀ i, i ≤ MAX_ORDER → i ≠ 3 → getArea stA i = []) :=
  ⟨rfl, rfl, by decide, rfl, rfl, by decide⟩

/-- Witness for C2: instantiating the empty-order clauses at order 0. -/
theorem claim_C2_witness : getArea stA 0 = [] :=
  claim_C2.2.2.2.2.2 0 (by decide) (by decide)

/-- C3 (code bug): with an empty free pool — the requested range not
covered by any free block — `remove_page_range(0, 1)` does not fail with
a contract-violation abort; the source's `for (uint32_t order = MAX_ORDER;
order >= 0; order--)` loop decrements its unsigned counter past zero,
wrapping to `2^32 - 1`, and the following `_free_areas[order]` read is
out of bounds.  The model flags exactly this undefined behaviour as
`Err.ub` (distinct from `Err.assertFail`, the contract-violation abort). -/
theorem claim_C3 : remove_page_range init_free_areas 0 1 = .error Err.ub := rfl

/-- C4: for every invariant table and every range `[s, s+n)` none of whose
pages is in the free pool, `insert_range(s, n)` followed immediately by
`remove_range(s, n)` leaves the free-area table in exactly the prior
state, and in particular the total free-page count unchanged. -/
theorem claim_C4 : ∀ (st : St) (s n : Nat), Inv st →
    (∀ p, p < s + n → s ≤ p → ¬ freePage st p) →
    ∃ st1 st2, insert_page_range st s n = .ok st1 ∧
      remove_page_range st1 s n = .ok st2 ∧ st2 = st ∧
      totalFreePages st2 = totalFreePages st := by
  intro st s n hInv hfresh
  obtain ⟨st1, hrun1, hinv1, hF1⟩ := insert_page_range_ok hInv
    (fun p h1 h2 => hfresh p h2 h1)
  obtain ⟨st2, hrun2, hinv2, hF2⟩ := remove_page_range_ok hinv1
    (fun p h1 h2 => (hF1 p).mpr (Or.inr ⟨h1, h2⟩))
  have hst : st2 = st := by
    apply table_unique hinv2 hInv
    intro p
    rw [hF2 p, hF1 p]
    constructor
    · rintro ⟨hF | hR, hnr⟩
      · exact hF
      · exact absurd hR hnr
    · intro hF
      refine ⟨Or.inl hF, ?_⟩
      rintro ⟨hr1, hr2⟩
      exact hfresh p hr2 hr1 hF
  exact ⟨st1, st2, hrun1, hrun2, hst, by rw [hst]⟩

/-- Witness for C4: inserting then removing the not-currently-free range
`[0, 2)` from Scenario B's table restores it exactly. -/
theorem claim_C4_witness :
    ∃ st1 st2, insert_page_range stB 0 2 = .ok st1 ∧
      remove_page_range st1 0 2 = .ok st2 ∧ st2 = stB ∧
      totalFreePages st2 = totalFreePages stB :=
  claim_C4 stB 0 2 (by decide) (by decide)

/-- C5: `init` clears the pool, and `insert_range(0, 8)` then yields
exactly one free block, the order-3 block at frame 0, every other order
empty.  The block chosen at each step of `insert_page_range` is the
largest order `k ≤ MAX_ORDER` with `2^k` no larger than the remaining
count and the current start aligned to order `k` (greedy rule). -/
theorem claim_C5 :
    insert_page_range init_free_areas 0 8 = .ok stA ∧
    getArea stA 3 = [0] ∧
    (∀ i, i ≤ MAX_ORDER → i ≠ 3 → getArea stA i = []) ∧
    (∀ s n, 0 < n → 2 ^ find_size MAX_ORDER s n ≤ n ∧
      2 ^ find_size MAX_ORDER s n ∣ s ∧ find_size MAX_ORDER s n ≤ MAX_ORDER) ∧
    (∀ s n k, k ≤ MAX_ORDER → 2 ^ k ≤ n → 2 ^ k ∣ s →
      k ≤ find_size MAX_ORDER s n) := by
  refine ⟨rfl, rfl, by decide, ?_, ?_⟩
  · intro s n hn
    obtain ⟨h1, h2⟩ := find_size_spec MAX_ORDER s n hn
    exact ⟨h1, h2, find_size_le ..⟩
  · intro s n k hk h1 h2
    exact find_size_max MAX_ORDER s n k hk h1 h2

/-- Witness for C5: on the Scenario A seeding, the greedy rule indeed
picks order 3 for `start = 0`, `count = 8`. -/
theorem claim_C5_witness : 3 ≤ find_size MAX_ORDER 0 8 :=
  claim_C5.2.2.2.2 0 8 3 (by decide) (by decide) (by decide)

/-- C6: from Scenario A's table (a single order-3 free block at frame 0),
`allocate(1)` returns the block at frame 0 and leaves exactly an order-1
free block at frame 2 and an order-2 free block at frame 4. -/
theorem claim_C6 :
    allocate_pages stA 1 = .ok (stB, some 0) ∧
    getArea stB 1 = [2] ∧ getArea stB 2 = [4] ∧
    (∀ i, i ≤ MAX_ORDER → i ≠ 1 → i ≠ 2 → getArea stB i = []) :=
  ⟨rfl, rfl, rfl, by decide⟩

/-- Witness for C6: instantiating the empty-order clause at order 0. -/
theorem claim_C6_witness : getArea stB 0 = [] :=
  claim_C6.2.2.2 0 (by decide) (by decide) (by decide)

/-- C7: from Scenario A's table, `remove_range(3, 2)` excises frames 3
and 4 and leaves exactly four free blocks: order-1 at frame 0, order-0 at
frame 2, order-0 at frame 5, order-1 at frame 6. -/
theorem claim_C7 :
    remove_page_range stA 3 2 = .ok stD ∧
    getArea stD 0 = [2, 5] ∧ getArea stD 1 = [0, 6] ∧
    (∀ i, i ≤ MAX_ORDER → i ≠ 0 → i ≠ 1 → getArea stD i = []) :=
  ⟨rfl, rfl, rfl, by decide⟩

/-- Witness for C7: instantiating the empty-order clause at order 2. -/
theorem claim_C7_witness : getArea stD 2 = [] :=
  claim_C7.2.2.2 2 (by decide) (by decide) (by decide)

/-- C8: immediately after any `free` or `insert_range` called with its
precondition (aligned, not-currently-free block or range) on an invariant
table, no two buddy blocks of the same order below `MAX_ORDER` are
simultaneously free; equivalently, running the buddy-merge scan a second
time on the just-treated block changes nothing. -/
theorem claim_C8 :
    (∀ st b o st', Inv st → o ≤ MAX_ORDER → 2 ^ o ∣ b →
      (∀ p, p < b + 2 ^ o → b ≤ p → ¬ freePage st p) →
      free_pages st b o = .ok st' → EagerTable st') ∧
    (∀ st s n st', Inv st →
      (∀ p, p < s + n → s ≤ p → ¬ freePage st p) →
      insert_page_range st s n = .ok st' → EagerTable st') ∧
    (∀ st b o, EagerTable st → b ∈ getArea st o → repeated_merge st b o = .ok st) := by
  refine ⟨?_, ?_, ?_⟩
  · intro st b o st' hInv ho hal hfresh heq
    obtain ⟨st2, hrun, hinv, -⟩ := free_pages_ok hInv ho hal
      (fun p hp => hfresh p hp.2 hp.1)
    rw [hrun] at heq
    injection heq with he
    rw [← he]
    exact hinv.2.2.2.2
  · intro st s n st' hInv hfresh heq
    obtain ⟨st2, hrun, hinv, -⟩ := insert_page_range_ok hInv
      (fun p h1 h2 => hfresh p h2 h1)
    rw [hrun] at heq
    injection heq with he
    rw [← he]
    exact hinv.2.2.2.2
  · intro st b o hE hmem
    unfold repeated_merge
    cases hfuel : MAX_ORDER - o with
    | zero => rfl
    | succ m =>
      have ho : o < MAX_ORDER := by omega
      cases hb : buddy_of b o with
      | none => exact repeated_merge_go_none ho hb
      | some bud =>
        obtain ⟨-, hal, rfl⟩ := buddy_of_some hb
        exact repeated_merge_go_stop ho hb (hE o ho b hmem)

/-- Witness for C8: a second merge scan on the order-3 block of Scenario
A's (eager-merged) table is a no-op. -/
theorem claim_C8_witness : repeated_merge stA 0 3 = .ok stA :=
  claim_C8.2.2 stA 0 3 (by decide) (by decide)

/-- C9: in every state reachable from an initialized table via the public
operations called with their preconditions satisfied, every free block of
order `k` starts at a frame divisible by `2^k`, the page ranges of free
blocks are pairwise disjoint within and across orders, and each order's
free list is sorted strictly ascending. -/
theorem claim_C9 : ∀ st, Reachable st →
    AlignedTable st ∧ DisjointTable st ∧ SortedTable st := by
  intro st h
  have hInv := reachable_inv h
  exact ⟨hInv.2.1, hInv.2.2.2.1, hInv.2.2.1⟩

/-- Witness for C9: the initialized (empty) table. -/
theorem claim_C9_witness :
    AlignedTable init_free_areas ∧ DisjointTable init_free_areas ∧
      SortedTable init_free_areas :=
  claim_C9 init_free_areas Reachable.init

/-- C10: whenever `allocate(order)`, for `0 ≤ order ≤ MAX_ORDER`, fails
and returns `NULL`, the free-area table is left completely unchanged —
the failure exit precedes any list mutation. -/
theorem claim_C10 : ∀ (st st2 : St) (k : Nat), k ≤ MAX_ORDER →
    allocate_pages st k = .ok (st2, none) → st2 = st :=
  fun _ _ _ hk h => allocate_pages_fail_id hk h

/-- Witness for C10: a failing `allocate(MAX_ORDER)` on the empty table. -/
theorem claim_C10_witness : init_free_areas = init_free_areas :=
  claim_C10 init_free_areas init_free_areas MAX_ORDER (by decide) rfl

end Buddy
